import Mathlib

/-!
Verification of the `ai-context` PostgreSQL/Rails static-analysis scripts.

The three Python scripts (`analyze_indexes.py`, `analyze_n_plus_one.py`,
`analyze_config.py`) work by running a fixed family of regular expressions
over file contents.  This development shallowly embeds each script: every
regex of the source is rendered as an explicit character-level matcher over
`List Char`, and `re.finditer` / `re.search` are rendered as generic
scanners.  All definitions are executable so that concrete schema texts can
be evaluated by `decide`.

Conventions used throughout:
* a "word char" is the Python `\w` restricted to ASCII (letter, digit, `_`);
* a "space char" is the Python `\s` (space, tab, newline, CR, FF, VT);
* `re.finditer` scans left to right, emits non-overlapping matches and
  resumes after the end of each match; every pattern in the source consumes
  at least one character, so a fuel argument equal to the remaining length
  is sufficient and exact (`reFindIter`).
-/


set_option maxRecDepth 8000

/-- Python `\w` (ASCII fragment): letters, digits and underscore. -/
def isWordChar (c : Char) : Bool := c.isAlphanum || c = '_'

/-- Python `\s`: space, tab, newline, carriage return, vertical tab, form feed. -/
def isSpaceChar (c : Char) : Bool :=
  c = ' ' || c = '\t' || c = '\n' || c = '\r' || c = '\x0b' || c = '\x0c'

/-- Does `cs` start with the literal character sequence `pat`? -/
def litHere : List Char → List Char → Bool
  | [], _ => true
  | _ :: _, [] => false
  | p :: ps, c :: cs => p = c && litHere ps cs

/-- Match a literal at the head of the input, returning the remainder. -/
def lit (pat cs : List Char) : Option (List Char) :=
  if litHere pat cs then some (cs.drop pat.length) else none

/-- Match one character satisfying `p` (a regex character class). -/
def chOne (p : Char → Bool) : List Char → Option (List Char)
  | [] => none
  | c :: cs => if p c then some cs else none

/-- Greedy `p*`: the maximal run and the remainder.  Because every use in the
source has a follow-up character disjoint from the class, the greedy maximal
run is exactly what the Python engine commits to (no backtracking occurs). -/
def starRun (p : Char → Bool) (cs : List Char) : List Char × List Char :=
  (cs.takeWhile p, cs.dropWhile p)

/-- Greedy `p+`: like `star` but requiring a nonempty run. -/
def plusRun (p : Char → Bool) (cs : List Char) : Option (List Char × List Char) :=
  if cs.takeWhile p = [] then none else some (cs.takeWhile p, cs.dropWhile p)

/-- Optional literal character (`x?` in a regex). -/
def optChar (x : Char) : List Char → List Char
  | [] => []
  | c :: cs => if c = x then cs else c :: cs

/-- Non-greedy `.*?` (DOTALL) followed by the sub-matcher `m`: try `m` at the
current position, then one character later, and so on; returns the skipped
span and the remainder after the match of `m`. -/
def scanUntil (m : List Char → Option (List Char)) : List Char → Option (List Char × List Char)
  | [] => (m []).map (fun r => ([], r))
  | c :: cs =>
    match m (c :: cs) with
    | some rest => some ([], rest)
    | none => (scanUntil m cs).map (fun p => (c :: p.1, p.2))

/-- Fuel-indexed body of `reFindIter`; the fuel dominates the list length. -/
def reFindIterAux {α : Type} (m : List Char → Option (α × List Char)) :
    Nat → List Char → List α
  | 0, _ => []
  | _ + 1, [] => []
  | fuel + 1, c :: cs =>
    match m (c :: cs) with
    | some (a, rest) => a :: reFindIterAux m fuel rest
    | none => reFindIterAux m fuel cs

/-- `re.finditer`: scan left to right, collecting non-overlapping matches and
resuming after each match.  The fuel `cs.length` is exact because every
matcher used in this development consumes at least one character. -/
def reFindIter {α : Type} (m : List Char → Option (α × List Char)) (cs : List Char) : List α :=
  reFindIterAux m cs.length cs

/-- `re.search` returning the payload of the first (leftmost) match. -/
def reFirst {α : Type} (m : List Char → Option α) : List Char → Option α
  | [] => m []
  | c :: cs =>
    match m (c :: cs) with
    | some a => some a
    | none => reFirst m cs

/-- Boolean `re.search`: does `m` match at some position of the input? -/
def reHas (m : List Char → Bool) : List Char → Bool
  | [] => m []
  | c :: cs => m (c :: cs) || reHas m cs

/-- Python `needle in haystack` for strings (substring test). -/
def containsSub (needle hay : List Char) : Bool := reHas (litHere needle) hay

/-- Python `str.split` on the newline character. -/
def splitNl : List Char → List (List Char)
  | [] => [[]]
  | c :: cs =>
    match splitNl cs with
    | [] => [[c]]
    | l :: ls => if c = '\n' then [] :: l :: ls else (c :: l) :: ls

/-! ## Schema parser (`analyze_indexes.py`, `parse_schema`)

`parse_schema` runs three regexes over the schema file content:

* `create_table\s+"(\w+)".*?do\s*\|t\|(.*?)end` (DOTALL) for table blocks;
* within each block body, `t\.(\w+)\s+"(\w+)"` for columns and
  `t\.\w+\s+"(\w+_id)"` for foreign-key-shaped columns;
* over the whole file, `add_index\s+"(\w+)",\s+\[?"(\w+)"?\]?` for indexes
  (capturing only the first column of a column list).
-/

/-- Matcher for `do\s*\|t\|` (the `.*?` separator target inside the
table-block regex). -/
def matchDoT (cs : List Char) : Option (List Char) :=
  (lit ['d', 'o'] cs).bind fun cs2 =>
  lit ['|', 't', '|'] (starRun isSpaceChar cs2).2

/-- One match of `create_table\s+"(\w+)".*?do\s*\|t\|(.*?)end` (DOTALL) at the
head of the input: returns ((table name, block body), remainder).  The two
non-greedy spans commit to the first position where their follow-up pattern
matches; no global backtracking is needed because a failure of the second
span (`end` absent in the remainder) implies failure for every later
candidate of the first span as well. -/
def matchTableAt (cs : List Char) : Option ((String × String) × List Char) :=
  (lit "create_table".toList cs).bind fun cs1 =>
  (plusRun isSpaceChar cs1).bind fun p1 =>
  (lit ['"'] p1.2).bind fun cs2 =>
  (plusRun isWordChar cs2).bind fun pn =>
  (lit ['"'] pn.2).bind fun cs3 =>
  (scanUntil matchDoT cs3).bind fun pskip =>
  (scanUntil (lit ['e', 'n', 'd']) pskip.2).map fun pbody =>
    ((String.mk pn.1, String.mk pbody.1), pbody.2)

/-- One match of the column regex `t\.(\w+)\s+"(\w+)"` at the head of the
input: returns (captured column name = group 2, remainder). -/
def matchColAt (cs : List Char) : Option (String × List Char) :=
  (lit ['t', '.'] cs).bind fun cs1 =>
  (plusRun isWordChar cs1).bind fun p1 =>
  (plusRun isSpaceChar p1.2).bind fun p2 =>
  (lit ['"'] p2.2).bind fun cs2 =>
  (plusRun isWordChar cs2).bind fun pn =>
  (lit ['"'] pn.2).map fun cs3 => (String.mk pn.1, cs3)

/-- Backtracking residue of `"(\w+_id)"`: inside the quotes the greedy `\w+`
first consumes the whole quoted word (the quote is not a word char), and the
engine then gives characters back until the literal `_id"` fits; this
succeeds exactly when the quoted word ends in `_id` and has at least one
word char before that suffix, and the whole word is then the capture. -/
def fkNameCheck (name : List Char) : Bool :=
  litHere ['d', 'i', '_'] name.reverse && decide (3 < name.length)

/-- String-level version of `fkNameCheck`. -/
def fkShapedStr (s : String) : Bool := fkNameCheck s.data

/-- One match of the foreign-key regex `t\.\w+\s+"(\w+_id)"` at the head of
the input (see `fkNameCheck` for the `_id` condition). -/
def matchFkAt (cs : List Char) : Option (String × List Char) :=
  (lit ['t', '.'] cs).bind fun cs1 =>
  (plusRun isWordChar cs1).bind fun p1 =>
  (plusRun isSpaceChar p1.2).bind fun p2 =>
  (lit ['"'] p2.2).bind fun cs2 =>
  (plusRun isWordChar cs2).bind fun pn =>
  (lit ['"'] pn.2).bind fun cs3 =>
    if fkNameCheck pn.1 then some (String.mk pn.1, cs3) else none

/-- One match of `add_index\s+"(\w+)",\s+\[?"(\w+)"?\]?` at the head of the
input: returns ((table, first column), remainder).  The three trailing
optional elements can never cause a failure, so the greedy choice stands. -/
def matchAddIndexAt (cs : List Char) : Option ((String × String) × List Char) :=
  (lit "add_index".toList cs).bind fun cs1 =>
  (plusRun isSpaceChar cs1).bind fun p1 =>
  (lit ['"'] p1.2).bind fun cs2 =>
  (plusRun isWordChar cs2).bind fun pt =>
  (lit ['"'] pt.2).bind fun cs3 =>
  (lit [','] cs3).bind fun cs4 =>
  (plusRun isSpaceChar cs4).bind fun p2 =>
  (lit ['"'] (optChar '[' p2.2)).bind fun cs5 =>
  (plusRun isWordChar cs5).map fun pc =>
    ((String.mk pt.1, String.mk pc.1), optChar ']' (optChar '"' pc.2))

/-- All table-block matches of the schema content, in order (`re.finditer`). -/
def scanTables (cs : List Char) : List (String × String) := reFindIter matchTableAt cs

/-- All column captures of a block body, in order. -/
def scanCols (cs : List Char) : List String := reFindIter matchColAt cs

/-- All foreign-key captures of a block body, in order. -/
def scanFks (cs : List Char) : List String := reFindIter matchFkAt cs

/-- All `add_index` captures of the schema content, in order. -/
def scanAddIndexes (cs : List Char) : List (String × String) := reFindIter matchAddIndexAt cs

/-- The per-table record of the schema model (`tables[name]` in the source). -/
structure TableInfo where
  columns : List String
  foreign_keys : List String
  indexes : List String
deriving DecidableEq, Repr

/-- Python dict assignment `tables[table_name] = {...}`: replace the value in
place if the key exists (dicts keep the original insertion position), else
append a new entry. -/
def insertTable (ts : List (String × TableInfo)) (name : String) (info : TableInfo) :
    List (String × TableInfo) :=
  match ts with
  | [] => [(name, info)]
  | (k, v) :: rest =>
    if k = name then (k, info) :: rest else (k, v) :: insertTable rest name info

/-- The append to the `indexes` entry of `tables[table_name]` guarded by
`if table_name in tables`: statements whose table is absent are skipped. -/
def addIndex (ts : List (String × TableInfo)) (tname cname : String) :
    List (String × TableInfo) :=
  match ts with
  | [] => []
  | (k, v) :: rest =>
    if k = tname then (k, { v with indexes := v.indexes ++ [cname] }) :: rest
    else (k, v) :: addIndex rest tname cname

/-- The table record built from one block body (columns, foreign keys, and an
empty index list). -/
def blockInfo (body : String) : TableInfo :=
  { columns := scanCols body.toList, foreign_keys := scanFks body.toList, indexes := [] }

/-- The first pass of `parse_schema`: fold the table blocks into the model. -/
def buildTables (blocks : List (String × String)) : List (String × TableInfo) :=
  blocks.foldl (fun acc b => insertTable acc b.1 (blockInfo b.2)) []

/-- `parse_schema` (on the file content; reading the file is outside the
model): build the table entries from the blocks, then merge the `add_index`
matches of the whole file into the existing entries. -/
def parse_schema (content : String) : List (String × TableInfo) :=
  (scanAddIndexes content.toList).foldl
    (fun acc ic => addIndex acc ic.1 ic.2)
    (buildTables (scanTables content.toList))

/-- A finding of the schema-based analyzers (the dict literals of
`analyze_missing_indexes` / `analyze_boolean_columns`). -/
structure Finding where
  table : String
  column : String
  type : String
  severity : String
  message : String
  suggestion : String
deriving DecidableEq, Repr

/-- The finding appended for an unindexed foreign key. -/
def missingFkFinding (table_name fk : String) : Finding :=
  { table := table_name, column := fk, type := "missing_foreign_key_index",
    severity := "warning",
    message := "Foreign key " ++ fk ++ " on " ++ table_name ++ " should have an index",
    suggestion := "add_index :" ++ table_name ++ ", :" ++ fk }

/-- `analyze_missing_indexes`: for every table, for every entry of its
foreign-key list that is not in its index list, append a finding. -/
def analyze_missing_indexes (tables : List (String × TableInfo)) : List Finding :=
  tables.foldl
    (fun issues t =>
      t.2.foreign_keys.foldl
        (fun issues fk =>
          if fk ∈ t.2.indexes then issues else issues ++ [missingFkFinding t.1 fk])
        issues)
    []

/-- The finding appended for an unindexed boolean-looking column. -/
def booleanFinding (table_name column : String) : Finding :=
  { table := table_name, column := column, type := "boolean_index_opportunity",
    severity := "info",
    message := "Boolean column " ++ column ++ " on " ++ table_name ++
      " might benefit from a partial index",
    suggestion := "add_index :" ++ table_name ++ ", :" ++ column ++ ", where: \"" ++
      column ++ " = true\"" }

/-- `analyze_boolean_columns`: columns starting with `is_`/`has_` or named in
the fixed boolean-name list, and not indexed, get an info finding. -/
def analyze_boolean_columns (tables : List (String × TableInfo)) : List Finding :=
  tables.foldl
    (fun issues t =>
      t.2.columns.foldl
        (fun issues col =>
          if litHere "is_".toList col.data || litHere "has_".toList col.data ||
              decide (col ∈ ["active", "enabled", "published", "deleted"]) then
            if col ∈ t.2.indexes then issues else issues ++ [booleanFinding t.1 col]
          else issues)
        issues)
    []

/-! ## Association-list facts for the schema model -/

/-- First-match association lookup (Python dict access). -/
def lookupA {β : Type} (n : String) : List (String × β) → Option β
  | [] => none
  | (k, v) :: rest => if k = n then some v else lookupA n rest

/-- Keep-first deduplication relative to an already-seen set; `firstOccs`
describes the key order a Python dict acquires under repeated assignment. -/
def firstOccsAux (seen : List String) : List String → List String
  | [] => []
  | x :: xs => if x ∈ seen then firstOccsAux seen xs else x :: firstOccsAux (seen ++ [x]) xs

/-- Key list of a Python dict built by assigning each name in order. -/
def firstOccs (l : List String) : List String := firstOccsAux [] l

/-- The body of the last table block carrying a given name (Python dict
assignment is last-wins for the stored value). -/
def lastBlock (n : String) : List (String × String) → Option String
  | [] => none
  | (k, b) :: rest =>
    match lastBlock n rest with
    | some b2 => some b2
    | none => if k = n then some b else none

/-! ## Claims C1 and C2 -/

/-- Schema text whose single block declares `user_id` twice. -/
def exC1 : String :=
  "create_table \"posts\" do |t|\n  t.integer \"user_id\"\n  t.bigint \"user_id\"\nend\n"

/-- Schema text declaring `user_id` once, with no index statement. -/
def exC1b : String :=
  "create_table \"posts\" do |t|\n  t.integer \"user_id\"\nend\n"

/-- Schema text with an index whose column list contains `user_id` second. -/
def exC2 : String :=
  "create_table \"posts\" do |t|\n  t.integer \"user_id\"\nend\nadd_index \"posts\", [\"account_id\", \"user_id\"]\n"

/-- Schema text with an index whose column list contains `user_id` first. -/
def exC2b : String :=
  "create_table \"posts\" do |t|\n  t.integer \"user_id\"\nend\nadd_index \"posts\", [\"user_id\", \"account_id\"]\n"

/-- Schema text with two distinct table blocks and one `add_index` naming a
table absent from the model. -/
def exC3 : String :=
  "create_table \"posts\" do |t|\n  t.integer \"user_id\"\nend\ncreate_table \"users\" do |t|\n  t.string \"name\"\nend\nadd_index \"ghosts\", \"user_id\"\n"

/-! ## N+1 analyzer (`analyze_n_plus_one.py`)

`analyze_controller_action` walks the lines of a controller file.  For a line
matching `\.(all|where|find_by|find)\b` it joins the surrounding window
`lines[max(0, i-3) : min(len(lines), i+2)]` (1-based `i`), requires the
absence of `\.(includes|preload|eager_load)\b` there, takes the first match
of `@(\w+)\s*=` on the line, and scans `lines[j]` for `j` in
`range(i, min(len(lines), i+20))` (the 20 lines after line `i`) for
`@<var>\.\w+\.\w+`; on success it emits one warning finding for the line. -/

/-- Word-boundary test `\b` after a literal: the next character, if any, is
not a word char. -/
def noWordAhead : List Char → Bool
  | [] => true
  | c :: _ => !(isWordChar c)

/-- Alternation of literal words each followed by `\b`; for presence testing,
trying every branch is equivalent to the in-order attempt of the engine. -/
def wordAltB (ws : List String) (cs : List Char) : Bool :=
  ws.any (fun w => litHere w.toList cs && noWordAhead (cs.drop w.toList.length))

/-- `\.(all|where|find_by|find)\b` at the current position. -/
def fetchAt (cs : List Char) : Bool :=
  match cs with
  | '.' :: rest => wordAltB ["all", "where", "find_by", "find"] rest
  | _ => false

/-- `re.search` of the query-fetch pattern over a line. -/
def fetchSearch (cs : List Char) : Bool := reHas fetchAt cs

/-- `\.(includes|preload|eager_load)\b` at the current position. -/
def eagerAt (cs : List Char) : Bool :=
  match cs with
  | '.' :: rest => wordAltB ["includes", "preload", "eager_load"] rest
  | _ => false

/-- `re.search` of the eager-loading pattern over the context window. -/
def eagerSearch (cs : List Char) : Bool := reHas eagerAt cs

/-- `@(\w+)\s*=` at the current position, capturing the variable name; the
greedy `\w+` and `\s*` need no backtracking because `\w`, `\s` and `=` are
pairwise disjoint. -/
def assignAt (cs : List Char) : Option String :=
  (lit ['@'] cs).bind fun cs1 =>
  (plusRun isWordChar cs1).bind fun pn =>
  (lit ['='] (starRun isSpaceChar pn.2).2).map fun _ => String.mk pn.1

/-- First (leftmost) assignment match of a line (`re.search` group 1). -/
def assignSearch (cs : List Char) : Option String := reFirst assignAt cs

/-- Whether the line contains an assignment whose captured variable is `var`
(any match of `@(\w+)\s*=`, not just the first). -/
def assignAnyOf (var : String) (cs : List Char) : Bool :=
  reHas (fun s =>
    match assignAt s with
    | some v => v == var
    | none => false) cs

/-- `@<var>\.\w+\.\w+` at the current position. -/
def chainAt (var : String) (cs : List Char) : Bool :=
  ((lit ('@' :: var.toList) cs).bind fun cs1 =>
   (lit ['.'] cs1).bind fun cs2 =>
   (plusRun isWordChar cs2).bind fun p1 =>
   (lit ['.'] p1.2).bind fun cs3 =>
   (plusRun isWordChar cs3).map fun _ => ()).isSome

/-- `re.search` of the association-chain pattern over a line. -/
def chainSearch (var : String) (cs : List Char) : Bool := reHas (chainAt var) cs

/-- An issue dict of `analyze_n_plus_one.py`. -/
structure NIssue where
  file : String
  line : Nat
  type : String
  severity : String
  message : String
deriving DecidableEq, Repr

/-- The warning dict appended for a detected potential N+1 site. -/
def nPlusOneFinding (file_path : String) (i : Nat) : NIssue :=
  { file := file_path, line := i, type := "potential_n_plus_one", severity := "warning",
    message := "Potential N+1 query: Query at line " ++ toString i ++
      " may need eager loading" }

/-- Context window `lines[max(0, i-3) : min(len(lines), i+2)]` joined with newlines
(`i` 1-based; Nat subtraction is the Python `max(0, i-3)`). -/
def contextOf (lines : List (List Char)) (i : Nat) : List Char :=
  List.intercalate ['\n'] ((lines.drop (i - 3)).take (min lines.length (i + 2) - (i - 3)))

/-- Per-line body of the loop in `analyze_controller_action`. -/
def lineIssue (file_path : String) (lines : List (List Char)) (i : Nat) (line : List Char) :
    Option NIssue :=
  if fetchSearch line then
    if eagerSearch (contextOf lines i) then none
    else
      match assignSearch line with
      | none => none
      | some var =>
        if ((lines.drop i).take (min lines.length (i + 20) - i)).any (chainSearch var) then
          some (nPlusOneFinding file_path i)
        else none
  else none

/-- `analyze_controller_action` over the content of one file. -/
def analyze_controller_action (file_path content : String) : List NIssue :=
  ((splitNl content.toList).enumFrom 1).filterMap
    (fun p => lineIssue file_path (splitNl content.toList) p.1 p.2)

/-- `(\w+)\.(\w+)\.(each|map|size|count|\w+)` at the current position; since
the final alternative `\w+` subsumes the named ones, presence reduces to a
three-word dotted chain. -/
def viewChainAt (cs : List Char) : Bool :=
  ((plusRun isWordChar cs).bind fun p1 =>
   (lit ['.'] p1.2).bind fun cs1 =>
   (plusRun isWordChar cs1).bind fun p2 =>
   (lit ['.'] p2.2).bind fun cs2 =>
   (plusRun isWordChar cs2).map fun _ => ()).isSome

/-- `analyze_view_file`: one info finding per line containing an association
access chain. -/
def analyze_view_file (file_path content : String) : List NIssue :=
  ((splitNl content.toList).enumFrom 1).filterMap (fun p =>
    if reHas viewChainAt p.2 then
      some { file := file_path, line := p.1, type := "view_association_access",
             severity := "info",
             message := "Association access in view - verify eager loading in controller" }
    else none)

/-- `scan_directory` over already-read file contents (per-file read errors are
skipped by the source and therefore absent from the input list). -/
def scan_files (analyzer : String → String → List NIssue)
    (files : List (String × String)) : List NIssue :=
  files.foldl (fun acc f => acc ++ analyzer f.1 f.2) []

/-- All findings of the N+1 entry point: controller issues, then `.erb` view
issues, then `.haml` view issues. -/
def n_plus_one_issues (controllers erbs hamls : List (String × String)) : List NIssue :=
  scan_files analyze_controller_action controllers ++
    (scan_files analyze_view_file erbs ++ scan_files analyze_view_file hamls)

/-- Exit code of the N+1 entry point on the non-fatal path:
`return 0 if not by_severity["warning"] else 1`. -/
def n_plus_one_exit (controllers erbs hamls : List (String × String)) : Nat :=
  if ((n_plus_one_issues controllers erbs hamls).filter
      (fun i => i.severity == "warning")).isEmpty then 0 else 1

/-- Controller content for the C4 counterexample: the fetch result is
assigned to `@posts`, but the FIRST assignment match on the line is
`@count`. -/
def exC4 : String := "@count = 0; @posts = Post.all\n@posts.user.name\n"

/-! ## WHERE-clause analyzer (`analyze_indexes.py`, `analyze_where_clauses`)

The source scans model and controller files (globs `app/models/**/*.rb`,
`app/controllers/**/*.rb`); the embedding takes the list of successfully
read (path, content) pairs in traversal order (per-file read failures are
swallowed by the `except: pass` of the source).  The dedup key is the Python
f-string `f"{file_path.stem}:{column}"`. -/

/-- `\.where\(\s*(\w+):\s*` at the current position (keyword-argument form). -/
def matchWhereKwAt (cs : List Char) : Option (String × List Char) :=
  (lit ".where(".toList cs).bind fun cs1 =>
  (plusRun isWordChar (starRun isSpaceChar cs1).2).bind fun pn =>
  (lit [':'] pn.2).map fun cs2 => (String.mk pn.1, (starRun isSpaceChar cs2).2)

/-- The raw-condition filter regex (dot, `where`, opening paren, a single or double quote, a `\w+` capture, optional spaces, `=`) at the current position. -/
def matchWhereRawAt (cs : List Char) : Option (String × List Char) :=
  (lit ".where(".toList cs).bind fun cs1 =>
  (chOne (fun c => c = '"' || c = '\'') cs1).bind fun cs2 =>
  (plusRun isWordChar cs2).bind fun pn =>
  (lit ['='] (starRun isSpaceChar pn.2).2).map fun cs3 => (String.mk pn.1, cs3)

/-- All captured columns of one file, in the loop order of the source: every
keyword-style match first, then every raw-style match. -/
def whereCols (content : String) : List String :=
  reFindIter matchWhereKwAt content.toList ++ reFindIter matchWhereRawAt content.toList

/-- `pathlib.Path.stem`: the final path component without its last suffix (a
lone leading dot is not a suffix). -/
def stemOf (path : String) : String :=
  let name := (path.toList.reverse.takeWhile (fun c => c ≠ '/')).reverse
  match name.reverse.dropWhile (fun c => c ≠ '.') with
  | [] => String.mk name
  | _ :: [] => String.mk name
  | _ :: rest => String.mk rest.reverse

/-- A finding dict of `analyze_where_clauses`. -/
structure WFinding where
  file : String
  column : String
  type : String
  severity : String
  message : String
deriving DecidableEq, Repr

/-- The info finding appended for a WHERE-clause column. -/
def whereFinding (file column : String) : WFinding :=
  { file := file, column := column, type := "where_clause_column", severity := "info",
    message := "Column \"" ++ column ++
      "\" used in WHERE clause - consider indexing if queries are slow" }

/-- The dedup key `f"{file_path.stem}:{column}"` of a finding. -/
def keyOf (f : WFinding) : String := stemOf f.file ++ ":" ++ f.column

/-- Per-file loop body: for each captured column, if the dedup key is new,
record it in the seen set and append a finding (the Python set is modelled
as a list read only through membership). -/
def whereStep (file_path : String) (cols : List String)
    (st : List String × List WFinding) : List String × List WFinding :=
  cols.foldl
    (fun st col =>
      if (stemOf file_path ++ ":" ++ col) ∈ st.1 then st
      else ((stemOf file_path ++ ":" ++ col) :: st.1, st.2 ++ [whereFinding file_path col]))
    st

/-- `analyze_where_clauses` over the scanned files. -/
def analyze_where_clauses (files : List (String × String)) : List WFinding :=
  (files.foldl (fun st f => whereStep f.1 (whereCols f.2) st) ([], [])).2

/-- Two distinct scanned files sharing the stem `user`. -/
def exC5 : List (String × String) :=
  [("app/models/admin/user.rb", "User.where(status: 1)"),
   ("app/models/api/user.rb", "User.where(status: 1)")]

/-- Files with distinct stems filtering the same column. -/
def exC5b : List (String × String) :=
  [("app/models/user.rb", "User.where(status: 1)\nUser.where(status: 2)"),
   ("app/models/post.rb", "Post.where(status: 1)")]

/-! ## Configuration analyzer (`analyze_config.py`)

The parsed `database.yml` is a mapping from environment name to a
Configuration Record.  YAML values are embedded as `YVal`; the Python
`bool` is a subclass of `int`, so `isinstance(x, int)` accepts booleans
(`isIntLike`).  `dict.get(k)` returning `None` (key absent or stored null)
is `ygetOpt = none`.  The membership test `k in x` raises `TypeError` for
non-iterable `x`; it is total only on mappings and strings (`ymem`), and the
resulting exception propagates out of `main` uncaught, terminating the
process with status 1. -/

/-- A YAML value as produced by `yaml.safe_load`, restricted to the node
kinds the analyzers distinguish. -/
inductive YVal where
  | null : YVal
  | bool (b : Bool) : YVal
  | int (n : Int) : YVal
  | str (s : String) : YVal
  | dict (entries : List (String × YVal)) : YVal

/-- `env_config.get(k) is None`-style access: `none` when the key is absent
or stores YAML null, otherwise the stored value. -/
def ygetOpt (k : String) (cfg : List (String × YVal)) : Option YVal :=
  match lookupA k cfg with
  | none => none
  | some .null => none
  | some v => some v

/-- Python `isinstance(x, int)` with the extracted integer; `bool` is an
`int` subclass in Python (`True == 1`, `False == 0`). -/
def isIntLike : YVal → Option Int
  | .int n => some n
  | .bool b => some (if b then 1 else 0)
  | _ => none

/-- Python truthiness of a YAML value. -/
def yTruthy : YVal → Bool
  | .null => false
  | .bool b => b
  | .int n => if n = 0 then false else true
  | .str s => if s = "" then false else true
  | .dict l => if l.isEmpty then false else true

/-- f-string rendering of the values that can reach a message (int/bool). -/
def yShow : YVal → String
  | .int n => toString n
  | .bool true => "True"
  | .bool false => "False"
  | _ => ""

/-- Python `k in cfg` for a mapping (key membership, regardless of value). -/
def hasKey (k : String) (cfg : List (String × YVal)) : Bool :=
  cfg.any (fun p => p.1 == k)

/-- Python `key in x`: key membership for dicts, substring test for strings,
`TypeError` otherwise. -/
def ymem (key : String) : YVal → Except String Bool
  | .dict l => .ok (l.any (fun p => p.1 == key))
  | .str s => .ok (containsSub key.toList s.toList)
  | _ => .error "TypeError"

/-- An issue dict of `analyze_config.py`. -/
structure CFinding where
  environment : String
  setting : String
  severity : String
  message : String
  recommendation : String
deriving DecidableEq, Repr

/-- `analyze_connection_pool`. -/
def analyze_connection_pool (env_config : List (String × YVal)) (env_name : String) :
    List CFinding :=
  match ygetOpt "pool" env_config with
  | none =>
    [{ environment := env_name, setting := "pool", severity := "warning",
       message := "Connection pool size not explicitly set (defaults to 5)",
       recommendation := "Set pool size based on your application threads/workers. For Puma with 5 threads: pool: 5" }]
  | some v =>
    match isIntLike v with
    | some n =>
      if n < 5 then
        [{ environment := env_name, setting := "pool", severity := "warning",
           message := "Connection pool size (" ++ yShow v ++ ") is quite small",
           recommendation := "Consider increasing pool size to match your web server threads/workers" }]
      else if n > 20 then
        [{ environment := env_name, setting := "pool", severity := "info",
           message := "Connection pool size (" ++ yShow v ++ ") is quite large",
           recommendation := "Verify this matches your actual concurrency needs. Too many connections can strain PostgreSQL" }]
      else []
    | none => []

/-- The `statement_timeout` warning dict. -/
def stFinding (env_name : String) : CFinding :=
  { environment := env_name, setting := "statement_timeout", severity := "warning",
    message := "statement_timeout not configured",
    recommendation := "Add to database.yml:\n  variables:\n    statement_timeout: 30000  # 30 seconds in milliseconds" }

/-- The `connect_timeout` info dict. -/
def ctFinding (env_name : String) : CFinding :=
  { environment := env_name, setting := "connect_timeout", severity := "info",
    message := "connect_timeout not configured",
    recommendation := "Add connect_timeout: 5 to prevent hanging on database connection issues" }

/-- The `checkout_timeout` info dict. -/
def ckFinding (env_name : String) : CFinding :=
  { environment := env_name, setting := "checkout_timeout", severity := "info",
    message := "checkout_timeout not configured (defaults to 5 seconds)",
    recommendation := "Explicitly set checkout_timeout: 5 for clarity" }

/-- `analyze_timeouts`.  The condition `"variables" not in env_config or
"statement_timeout" not in env_config.get("variables")-or-empty-dict` short-circuits:
the membership test on the stored `variables` value runs only when the key
is present, and raises `TypeError` when that value is not a dict or
string. -/
def st_issues_of (env_config : List (String × YVal)) (env_name : String) :
    Except String (List CFinding) :=
  if hasKey "variables" env_config = false then Except.ok [stFinding env_name]
  else
    match ymem "statement_timeout" ((lookupA "variables" env_config).getD .null) with
    | .error e => .error e
    | .ok b => .ok (if b then [] else [stFinding env_name])

def analyze_timeouts (env_config : List (String × YVal)) (env_name : String) :
    Except String (List CFinding) :=
  (st_issues_of env_config env_name).map
    (fun st_issues => st_issues ++
      (if hasKey "connect_timeout" env_config = false then [ctFinding env_name] else []) ++
      (if hasKey "checkout_timeout" env_config = false then [ckFinding env_name] else []))

/-- `analyze_prepared_statements`: `is False` matches only a stored boolean
false; `is None` matches an absent key or stored null, and then only the
production environment gets the suggestion. -/
def analyze_prepared_statements (env_config : List (String × YVal)) (env_name : String) :
    List CFinding :=
  match ygetOpt "prepared_statements" env_config with
  | some (.bool false) =>
    [{ environment := env_name, setting := "prepared_statements", severity := "info",
       message := "Prepared statements are disabled",
       recommendation := "Prepared statements improve performance. Only disable if using PgBouncer in transaction mode" }]
  | none =>
    if env_name = "production" then
      [{ environment := env_name, setting := "prepared_statements", severity := "info",
         message := "Prepared statements setting not explicit",
         recommendation := "Add prepared_statements: true for better query performance (enabled by default)" }]
    else []
  | some _ => []

/-- `analyze_reaping_frequency`. -/
def analyze_reaping_frequency (env_config : List (String × YVal)) (env_name : String) :
    List CFinding :=
  if hasKey "reaping_frequency" env_config = false ∧ env_name = "production" then
    [{ environment := env_name, setting := "reaping_frequency", severity := "info",
       message := "reaping_frequency not configured",
       recommendation := "Consider adding reaping_frequency: 60 to clean up stale connections (seconds)" }]
  else []

/-- `not sslmode or sslmode == "disable"` on the result of
`env_config.get("sslmode")`. -/
def sslBad : Option YVal → Bool
  | none => true
  | some v => !(yTruthy v) || (match v with | .str s => s == "disable" | _ => false)

/-- `check_ssl_configuration`. -/
def check_ssl_configuration (env_config : List (String × YVal)) (env_name : String) :
    List CFinding :=
  if env_name = "production" then
    if sslBad (ygetOpt "sslmode" env_config) then
      [{ environment := env_name, setting := "sslmode", severity := "warning",
         message := "SSL/TLS not enforced for production database connections",
         recommendation := "Add sslmode: require or sslmode: verify-full for secure connections" }]
    else []
  else []

/-- The unconditional pg_stat_statements suggestion dict. -/
def pgStatFinding (env_name : String) : CFinding :=
  { environment := env_name, setting := "extensions", severity := "info",
    message := "Consider enabling pg_stat_statements extension",
    recommendation := "Enable in PostgreSQL config:\n  shared_preload_libraries = \x27pg_stat_statements\x27\nThen run: CREATE EXTENSION IF NOT EXISTS pg_stat_statements;" }

/-- `suggest_performance_extensions`. -/
def suggest_performance_extensions (env_name : String) : List CFinding :=
  [pgStatFinding env_name]

/-- One iteration of the environment loop of `main`: skip absent environments and
non-dict environment values, otherwise run the five analyzers in source
order. -/
def analyze_env (config : List (String × YVal)) (env_name : String) :
    Except String (List CFinding) :=
  match lookupA env_name config with
  | none => .ok []
  | some (.dict env_config) =>
    (analyze_timeouts env_config env_name).map
      (fun t => analyze_connection_pool env_config env_name ++ t ++
        analyze_prepared_statements env_config env_name ++
        analyze_reaping_frequency env_config env_name ++
        check_ssl_configuration env_config env_name)
  | some _ => .ok []

/-- All findings collected by `main` of `analyze_config.py` on the non-fatal
setup path: the three environments in order, then the unconditional
extension suggestion for the environment name `all`. -/
def config_findings (config : List (String × YVal)) : Except String (List CFinding) :=
  (analyze_env config "development").bind fun d =>
  (analyze_env config "test").bind fun t =>
  (analyze_env config "production").map fun p =>
    d ++ t ++ p ++ suggest_performance_extensions "all"

/-- Exit status of the config entry point given that setup succeeded: 0 on
normal completion; an uncaught analyzer exception terminates the interpreter
with status 1. -/
def config_main_exit (config : List (String × YVal)) : Nat :=
  match config_findings config with
  | .ok _ => 0
  | .error _ => 1

/-- Exit status of the index-analysis entry point on the non-fatal path: the
analyses run (and are printed, which the model elides) but the function
returns the literal 0 regardless of the findings. -/
def analyze_indexes_exit (schema_content : String) (files : List (String × String)) : Nat :=
  let tables := parse_schema schema_content
  let _missing := analyze_missing_indexes tables
  let _wheres := analyze_where_clauses files
  let _bools := analyze_boolean_columns tables
  0

/-! ## Claims C6, C7, C10 -/

/-- The §6 enumeration of connection-settings finding types in the spec. -/
def connectionSettingsTypes : List String :=
  ["connection_pool_size", "statement_timeout", "connect_timeout", "checkout_timeout",
   "prepared_statements", "reaping_frequency", "ssl_configuration"]

/-- The §6 spec type name for the `setting` key of a finding: the code setting `pool`
is the spec type `connection_pool_size`, the code setting `sslmode` is the spec type
`ssl_configuration`; every other setting is named literally. -/
def specFindingType (setting : String) : String :=
  if setting = "pool" then "connection_pool_size"
  else if setting = "sslmode" then "ssl_configuration"
  else setting

/-- Configuration whose `variables` value is an int, making the membership
test in `analyze_timeouts` raise a TypeError. -/
def exC7 : List (String × YVal) := [("development", YVal.dict [("variables", YVal.int 30)])]

/-- Configuration whose `variables` value is YAML null; `"statement_timeout"
in None` raises TypeError in Python. -/
def exC10 : List (String × YVal) := [("production", YVal.dict [("variables", YVal.null)])]

/-! ## Theorems -/

theorem litHere_eq_true {pat cs : List Char} (h : litHere pat cs = true) :
    cs = pat ++ cs.drop pat.length := by
  induction pat generalizing cs with
  | nil => simp
  | cons p ps ih =>
    cases cs with
    | nil => simp [litHere] at h
    | cons c cs =>
      simp only [litHere, Bool.and_eq_true, decide_eq_true_eq] at h
      obtain ⟨rfl, h2⟩ := h
      simpa using ih h2

theorem lit_some {pat cs rest : List Char} (h : lit pat cs = some rest) :
    cs = pat ++ rest := by
  unfold lit at h
  split at h
  · next hl => cases h; exact litHere_eq_true hl
  · cases h

theorem lit_length_le {pat cs rest : List Char} (h : lit pat cs = some rest) :
    rest.length ≤ cs.length := by
  have := lit_some h; subst this; simp

theorem lit_length_lt {pat cs rest : List Char} (hp : pat ≠ []) (h : lit pat cs = some rest) :
    rest.length < cs.length := by
  have := lit_some h; subst this
  cases pat with
  | nil => exact absurd rfl hp
  | cons a l => simp [Nat.lt_succ_iff]

theorem plusRun_some {p : Char → Bool} {cs run rest : List Char}
    (h : plusRun p cs = some (run, rest)) :
    cs = run ++ rest ∧ run ≠ [] ∧ ∀ c ∈ run, p c = true := by
  unfold plusRun at h
  split at h
  · cases h
  · next hne =>
    cases h
    exact ⟨(List.takeWhile_append_dropWhile (p := p) (l := cs)).symm, hne,
      fun c hc => List.mem_takeWhile_imp hc⟩

theorem plusRun_length_le {p : Char → Bool} {cs run rest : List Char}
    (h : plusRun p cs = some (run, rest)) : rest.length ≤ cs.length := by
  obtain ⟨he, _, _⟩ := plusRun_some h
  subst he; simp

theorem starRun_length_le (p : Char → Bool) (cs : List Char) :
    (starRun p cs).2.length ≤ cs.length := by
  have h := List.takeWhile_append_dropWhile (p := p) (l := cs)
  have := congrArg List.length h
  simp only [List.length_append] at this
  simp [starRun]
  omega

theorem optChar_length_le (x : Char) (cs : List Char) :
    (optChar x cs).length ≤ cs.length := by
  cases cs with
  | nil => simp [optChar]
  | cons c cs => by_cases h : c = x <;> simp [optChar, h]

theorem scanUntil_length_le {m : List Char → Option (List Char)}
    (hm : ∀ cs r, m cs = some r → r.length ≤ cs.length) :
    ∀ {cs sk r}, scanUntil m cs = some (sk, r) → r.length ≤ cs.length := by
  intro cs
  induction cs with
  | nil =>
    intro sk r h
    simp only [scanUntil, Option.map_eq_some'] at h
    obtain ⟨a, ha, hr⟩ := h
    cases hr
    exact hm _ _ ha
  | cons c cs ih =>
    intro sk r h
    simp only [scanUntil] at h
    split at h
    · next heq => cases h; exact le_trans (hm _ _ heq) (by simp)
    · simp only [Option.map_eq_some'] at h
      obtain ⟨⟨sk', r'⟩, hs, hr⟩ := h
      cases hr
      exact le_trans (ih hs) (by simp)

theorem reFindIterAux_fuel {α : Type} (m : List Char → Option (α × List Char))
    (hm : ∀ cs p, m cs = some p → p.2.length < cs.length) :
    ∀ fuel fuel2 cs, cs.length ≤ fuel → cs.length ≤ fuel2 →
      reFindIterAux m fuel cs = reFindIterAux m fuel2 cs := by
  intro fuel
  induction fuel with
  | zero =>
    intro fuel2 cs h _
    have : cs = [] := List.length_eq_zero.mp (Nat.le_zero.mp h)
    subst this
    cases fuel2 <;> rfl
  | succ fuel ih =>
    intro fuel2 cs h h2
    cases cs with
    | nil => cases fuel2 <;> rfl
    | cons c cs =>
      simp only [List.length_cons] at h h2
      cases fuel2 with
      | zero => omega
      | succ fuel2 =>
        show (match m (c :: cs) with
          | some (a, rest) => a :: reFindIterAux m fuel rest
          | none => reFindIterAux m fuel cs) =
          (match m (c :: cs) with
          | some (a, rest) => a :: reFindIterAux m fuel2 rest
          | none => reFindIterAux m fuel2 cs)
        cases hmc : m (c :: cs) with
        | none =>
          dsimp only
          exact ih fuel2 cs (by omega) (by omega)
        | some p =>
          obtain ⟨a, rest⟩ := p
          have hlt := hm _ _ hmc
          simp only [List.length_cons] at hlt
          dsimp only
          rw [ih fuel2 rest (by omega) (by omega)]

theorem reFindIter_cons_some {α : Type} {m : List Char → Option (α × List Char)}
    (hm : ∀ cs p, m cs = some p → p.2.length < cs.length) {c : Char} {cs : List Char}
    {a : α} {rest : List Char} (hmc : m (c :: cs) = some (a, rest)) :
    reFindIter m (c :: cs) = a :: reFindIter m rest := by
  show reFindIterAux m (cs.length + 1) (c :: cs) = _
  have hlt := hm _ _ hmc
  simp only [List.length_cons] at hlt
  rw [show reFindIterAux m (cs.length + 1) (c :: cs) =
      (match m (c :: cs) with
      | some (a, rest) => a :: reFindIterAux m cs.length rest
      | none => reFindIterAux m cs.length cs) from rfl, hmc]
  simp only [reFindIter]
  rw [reFindIterAux_fuel m hm cs.length rest.length rest (by omega) (by omega)]

theorem reFindIter_cons_none {α : Type} {m : List Char → Option (α × List Char)}
    {c : Char} {cs : List Char} (hmc : m (c :: cs) = none) :
    reFindIter m (c :: cs) = reFindIter m cs := by
  show reFindIterAux m (cs.length + 1) (c :: cs) = _
  rw [show reFindIterAux m (cs.length + 1) (c :: cs) =
      (match m (c :: cs) with
      | some (a, rest) => a :: reFindIterAux m cs.length rest
      | none => reFindIterAux m cs.length cs) from rfl, hmc]
  rfl

/-! ## Structural facts about the schema matchers -/

theorem matchColAt_some {cs : List Char} {name : String} {rest : List Char}
    (h : matchColAt cs = some (name, rest)) :
    ∃ ty sp nm, cs = 't' :: '.' :: (ty ++ (sp ++ '"' :: (nm ++ '"' :: rest))) ∧
      name = String.mk nm ∧ ty ≠ [] ∧ (∀ c ∈ ty, isWordChar c = true) ∧
      sp ≠ [] ∧ (∀ c ∈ sp, isSpaceChar c = true) ∧
      nm ≠ [] ∧ (∀ c ∈ nm, isWordChar c = true) := by
  unfold matchColAt at h
  simp only [Option.bind_eq_some, Option.map_eq_some'] at h
  obtain ⟨cs1, h1, ⟨ty, r1⟩, h2, ⟨sp, r2⟩, h3, cs2, h4, ⟨nm, r3⟩, h5, cs3, h6, hfin⟩ := h
  obtain ⟨e1⟩ := hfin
  obtain ⟨hty, htyne, htyw⟩ := plusRun_some h2
  obtain ⟨hsp, hspne, hspw⟩ := plusRun_some h3
  obtain ⟨hnm, hnmne, hnmw⟩ := plusRun_some h5
  have e2 := lit_some h1
  have e4 := lit_some h4
  have e6 := lit_some h6
  refine ⟨ty, sp, nm, ?_, rfl, htyne, htyw, hspne, hspw, hnmne, hnmw⟩
  subst e2 hty e4 hsp hnm e6
  simp

theorem matchColAt_lt {cs : List Char} {a : String × List Char}
    (h : matchColAt cs = some a) : a.2.length < cs.length := by
  obtain ⟨name, rest⟩ := a
  obtain ⟨ty, sp, nm, hcs, -⟩ := matchColAt_some h
  subst hcs
  simp
  omega

theorem matchFkAt_eq (cs : List Char) :
    matchFkAt cs = (matchColAt cs).bind
      (fun p => if fkShapedStr p.1 then some p else none) := by
  unfold matchFkAt matchColAt
  cases lit ['t', '.'] cs with
  | none => rfl
  | some cs1 =>
    dsimp only [Option.bind]
    cases plusRun isWordChar cs1 with
    | none => rfl
    | some p1 =>
      dsimp only [Option.bind]
      cases plusRun isSpaceChar p1.2 with
      | none => rfl
      | some p2 =>
        dsimp only [Option.bind]
        cases lit ['"'] p2.2 with
        | none => rfl
        | some cs2 =>
          dsimp only [Option.bind]
          cases plusRun isWordChar cs2 with
          | none => rfl
          | some pn =>
            dsimp only [Option.bind]
            cases lit ['"'] pn.2 with
            | none => rfl
            | some cs3 =>
              dsimp only [Option.bind, Option.map]
              rfl

theorem matchFkAt_lt {cs : List Char} {a : String × List Char}
    (h : matchFkAt cs = some a) : a.2.length < cs.length := by
  rw [matchFkAt_eq] at h
  simp only [Option.bind_eq_some] at h
  obtain ⟨p, hp, hif⟩ := h
  split at hif
  · cases hif; exact matchColAt_lt hp
  · cases hif

theorem matchAddIndexAt_lt {cs : List Char} {a : (String × String) × List Char}
    (h : matchAddIndexAt cs = some a) : a.2.length < cs.length := by
  unfold matchAddIndexAt at h
  simp only [Option.bind_eq_some, Option.map_eq_some'] at h
  obtain ⟨cs1, h1, p1, h2, cs2, h3, pt, h4, cs3, h5, cs4, h6, p2, h7, cs5, h8, pc, h9, hfin⟩ := h
  obtain ⟨e⟩ := hfin
  have l1 : cs1.length < cs.length := lit_length_lt (by decide) h1
  have l2 := plusRun_length_le h2
  have l3 := lit_length_le h3
  have l4 := plusRun_length_le h4
  have l5 := lit_length_le h5
  have l6 := lit_length_le h6
  have l7 := plusRun_length_le h7
  have l8a := optChar_length_le '[' p2.2
  have l8 := lit_length_le h8
  have l9 := plusRun_length_le h9
  have l10 := optChar_length_le '"' pc.2
  have l11 := optChar_length_le ']' (optChar '"' pc.2)
  simp only []
  omega

theorem matchDoT_le {cs r : List Char} (h : matchDoT cs = some r) :
    r.length ≤ cs.length := by
  unfold matchDoT at h
  simp only [Option.bind_eq_some] at h
  obtain ⟨cs1, h1, h2⟩ := h
  have := lit_length_le h1
  have := starRun_length_le isSpaceChar cs1
  have := lit_length_le h2
  omega

theorem matchTableAt_lt {cs : List Char} {a : (String × String) × List Char}
    (h : matchTableAt cs = some a) : a.2.length < cs.length := by
  unfold matchTableAt at h
  simp only [Option.bind_eq_some, Option.map_eq_some'] at h
  obtain ⟨cs1, h1, p1, h2, cs2, h3, pn, h4, cs3, h5, pskip, h6, pbody, h7, hfin⟩ := h
  obtain ⟨e⟩ := hfin
  have l1 : cs1.length < cs.length := lit_length_lt (by decide) h1
  have l2 := plusRun_length_le h2
  have l3 := lit_length_le h3
  have l4 := plusRun_length_le h4
  have l5 := lit_length_le h5
  have l6 := scanUntil_length_le (fun cs r h => matchDoT_le h) h6
  have l7 := scanUntil_length_le (fun cs r h => lit_length_le h) h7
  simp only []
  omega

/-! ## Scanner unfolding and the foreign-key/column alignment -/

theorem scanCols_cons_some {c : Char} {cs : List Char} {a : String} {rest : List Char}
    (hmc : matchColAt (c :: cs) = some (a, rest)) :
    scanCols (c :: cs) = a :: scanCols rest :=
  reFindIter_cons_some (fun _ _ h => matchColAt_lt h) hmc

theorem scanCols_cons_none {c : Char} {cs : List Char}
    (hmc : matchColAt (c :: cs) = none) : scanCols (c :: cs) = scanCols cs :=
  reFindIter_cons_none hmc

theorem scanFks_cons_some {c : Char} {cs : List Char} {a : String} {rest : List Char}
    (hmc : matchFkAt (c :: cs) = some (a, rest)) :
    scanFks (c :: cs) = a :: scanFks rest :=
  reFindIter_cons_some (fun _ _ h => matchFkAt_lt h) hmc

theorem scanFks_cons_none {c : Char} {cs : List Char}
    (hmc : matchFkAt (c :: cs) = none) : scanFks (c :: cs) = scanFks cs :=
  reFindIter_cons_none hmc

theorem matchFkAt_none_of_not_tdot {l : List Char}
    (h : ¬ ∃ r, l = 't' :: '.' :: r) : matchFkAt l = none := by
  unfold matchFkAt
  cases hl : lit ['t', '.'] l with
  | none => rfl
  | some r => exact absurd ⟨r, lit_some hl⟩ h

theorem wordChar_ne_dot {x : Char} (h : isWordChar x = true) : x ≠ '.' := by
  intro he; subst he; exact absurd h (by decide)

theorem spaceChar_ne_dot {x : Char} (h : isSpaceChar x = true) : x ≠ '.' := by
  intro he; subst he; exact absurd h (by decide)

/-- No position strictly inside the span consumed by a column match can start
a foreign-key match: the interior contains no `.`, and a length-one suffix is
the closing quote. -/
theorem fk_none_inner {inner rest : List Char}
    (hno : ∀ x ∈ inner, x ≠ '.')
    (hlast : ∃ pre, inner = pre ++ ['"']) :
    ∀ s, s ≠ [] → s <:+ inner → matchFkAt (s ++ rest) = none := by
  intro s hs hsuf
  apply matchFkAt_none_of_not_tdot
  rintro ⟨r, hr⟩
  cases s with
  | nil => exact hs rfl
  | cons a s' =>
    cases s' with
    | nil =>
      obtain ⟨pre, hpre⟩ := hlast
      obtain ⟨t, ht⟩ := hsuf
      have ha : a = '"' := by
        have h1 : (t ++ [a]).getLast? = some a := List.getLast?_concat t
        have h2 : (pre ++ ['"']).getLast? = some '"' := List.getLast?_concat pre
        rw [ht, hpre] at h1
        rw [h1] at h2
        exact Option.some_inj.mp h2
      subst ha
      simp only [List.cons_append, List.nil_append] at hr
      injection hr with h1 _
      exact absurd h1 (by decide)
    | cons b s'' =>
      have hb : b ∈ inner := hsuf.subset (by simp)
      have hbd := hno b hb
      simp only [List.cons_append] at hr
      injection hr with h1 h2
      injection h2 with h3 _
      exact hbd h3

/-- The suffix-failure hypothesis for the span consumed by a column match. -/
theorem fk_skip_hyp {ty sp nm rest : List Char}
    (hty : ∀ c ∈ ty, isWordChar c = true) (hsp : ∀ c ∈ sp, isSpaceChar c = true)
    (hnm : ∀ c ∈ nm, isWordChar c = true) :
    ∀ s, s ≠ [] → s <:+ ('.' :: (ty ++ (sp ++ '"' :: (nm ++ ['"'])))) →
      matchFkAt (s ++ rest) = none := by
  intro s hs hsuf
  rcases List.suffix_cons_iff.mp hsuf with h | h
  · subst h
    apply matchFkAt_none_of_not_tdot
    rintro ⟨r, hr⟩
    simp only [List.cons_append] at hr
    injection hr with h1 _
    exact absurd h1 (by decide)
  · refine fk_none_inner ?_ ?_ s hs h
    · intro x hx
      simp only [List.mem_append, List.mem_cons] at hx
      rcases hx with h1 | h2 | h3
      · exact wordChar_ne_dot (hty x h1)
      · exact spaceChar_ne_dot (hsp x h2)
      · rcases h3 with h4 | h5
        · subst h4; decide
        · simp only [List.mem_append, List.mem_cons, List.not_mem_nil, or_false] at h5
          rcases h5 with h6 | h7
          · exact wordChar_ne_dot (hnm x h6)
          · subst h7; decide
    · exact ⟨ty ++ (sp ++ '"' :: nm), by simp⟩

theorem scanFks_skip : ∀ (m rest : List Char),
    (∀ s, s ≠ [] → s <:+ m → matchFkAt (s ++ rest) = none) →
    scanFks (m ++ rest) = scanFks rest := by
  intro m
  induction m with
  | nil => intro rest _; rfl
  | cons x m ih =>
    intro rest h
    have h0 : matchFkAt ((x :: m) ++ rest) = none :=
      h (x :: m) (by simp) (List.suffix_refl _)
    simp only [List.cons_append] at h0 ⊢
    rw [scanFks_cons_none h0]
    exact ih rest (fun s hs hsuf => h s hs (hsuf.trans (List.suffix_cons x m)))

/-- The foreign-key scan of a block body is exactly the column scan filtered
by the `_id` naming convention, in the same order. -/
theorem scanFks_eq_filter (cs0 : List Char) :
    scanFks cs0 = (scanCols cs0).filter fkShapedStr := by
  generalize hn : cs0.length = n
  induction n using Nat.strong_induction_on generalizing cs0 with
  | _ n ih =>
    cases cs0 with
    | nil => rfl
    | cons c cs =>
      cases hm : matchColAt (c :: cs) with
      | none =>
        have hfk : matchFkAt (c :: cs) = none := by
          rw [matchFkAt_eq, hm]; rfl
        rw [scanCols_cons_none hm, scanFks_cons_none hfk]
        subst hn
        exact ih cs.length (by simp) cs rfl
      | some p =>
        obtain ⟨name, rest⟩ := p
        have hlt : rest.length < n := by
          have h2 := matchColAt_lt hm
          have h3 := hn
          dsimp only at h2
          simp only [List.length_cons] at h2 h3
          omega
        rw [scanCols_cons_some hm, List.filter_cons]
        by_cases hf : fkShapedStr name = true
        · have hfk : matchFkAt (c :: cs) = some (name, rest) := by
            rw [matchFkAt_eq, hm]
            dsimp only [Option.bind]
            rw [if_pos hf]
          rw [scanFks_cons_some hfk, if_pos hf]
          rw [ih rest.length hlt rest rfl]
        · have hfk : matchFkAt (c :: cs) = none := by
            rw [matchFkAt_eq, hm]
            dsimp only [Option.bind]
            rw [if_neg hf]
          rw [scanFks_cons_none hfk, if_neg hf]
          obtain ⟨ty, sp, nm, hcs, hname, htyne, htyw, hspne, hspw, hnmne, hnmw⟩ :=
            matchColAt_some hm
          have hcs' : cs = ('.' :: (ty ++ (sp ++ '"' :: (nm ++ ['"'])))) ++ rest := by
            have h4 := hcs
            injection h4 with _ h2
            rw [h2]; simp
          rw [hcs', scanFks_skip _ rest (fk_skip_hyp htyw hspw hnmw)]
          rw [ih rest.length hlt rest rfl]

theorem keys_insertTable (ts : List (String × TableInfo)) (n : String) (info : TableInfo) :
    (insertTable ts n info).map Prod.fst =
      if n ∈ ts.map Prod.fst then ts.map Prod.fst else ts.map Prod.fst ++ [n] := by
  induction ts with
  | nil => simp [insertTable]
  | cons t rest ih =>
    obtain ⟨k, v⟩ := t
    by_cases hk : k = n
    · subst hk
      simp [insertTable]
    · simp only [insertTable, if_neg hk, List.map_cons]
      rw [ih]
      by_cases hmem : n ∈ rest.map Prod.fst
      · simp [hmem, Ne.symm hk]
      · simp [hmem, Ne.symm hk]

theorem lookupA_insertTable (ts : List (String × TableInfo)) (n x : String) (info : TableInfo) :
    lookupA x (insertTable ts n info) = if n = x then some info else lookupA x ts := by
  induction ts with
  | nil =>
    by_cases h : n = x <;> simp [insertTable, lookupA, h]
  | cons t rest ih =>
    obtain ⟨k, v⟩ := t
    by_cases hk : k = n <;> by_cases hx : k = x <;> by_cases ht : n = x <;>
      simp_all [insertTable, lookupA]

theorem keys_addIndex (ts : List (String × TableInfo)) (t c : String) :
    (addIndex ts t c).map Prod.fst = ts.map Prod.fst := by
  induction ts with
  | nil => rfl
  | cons e rest ih =>
    obtain ⟨k, v⟩ := e
    by_cases hk : k = t
    · simp [addIndex, hk]
    · simp [addIndex, hk, ih]

theorem addIndex_preserves (ts : List (String × TableInfo)) (t c : String) :
    (addIndex ts t c).map (fun p => (p.1, p.2.columns, p.2.foreign_keys)) =
      ts.map (fun p => (p.1, p.2.columns, p.2.foreign_keys)) := by
  induction ts with
  | nil => rfl
  | cons e rest ih =>
    obtain ⟨k, v⟩ := e
    by_cases hk : k = t
    · simp [addIndex, hk]
    · simp [addIndex, hk, ih]

theorem lookupA_addIndex (ts : List (String × TableInfo)) (t c x : String) :
    lookupA x (addIndex ts t c) =
      if t = x then (lookupA x ts).map (fun v => { v with indexes := v.indexes ++ [c] })
      else lookupA x ts := by
  induction ts with
  | nil => by_cases h : t = x <;> simp [addIndex, lookupA, h]
  | cons e rest ih =>
    obtain ⟨k, v⟩ := e
    by_cases hk : k = t <;> by_cases hx : k = x <;> by_cases ht : t = x <;>
      simp_all [addIndex, lookupA]

theorem buildTables_fold_keys :
    ∀ (blocks : List (String × String)) (acc : List (String × TableInfo)),
      ((blocks.foldl (fun acc b => insertTable acc b.1 (blockInfo b.2)) acc).map Prod.fst) =
        acc.map Prod.fst ++ firstOccsAux (acc.map Prod.fst) (blocks.map Prod.fst) := by
  intro blocks
  induction blocks with
  | nil => intro acc; simp [firstOccsAux]
  | cons b rest ih =>
    intro acc
    obtain ⟨n, body⟩ := b
    simp only [List.foldl_cons, List.map_cons]
    rw [ih]
    rw [keys_insertTable]
    by_cases hmem : n ∈ acc.map Prod.fst
    · rw [if_pos hmem]
      simp only [firstOccsAux, if_pos hmem]
    · rw [if_neg hmem]
      simp only [firstOccsAux, if_neg hmem]
      simp

theorem buildTables_fold_lookup :
    ∀ (blocks : List (String × String)) (acc : List (String × TableInfo)) (x : String),
      lookupA x (blocks.foldl (fun acc b => insertTable acc b.1 (blockInfo b.2)) acc) =
        (match lastBlock x blocks with
         | some b => some (blockInfo b)
         | none => lookupA x acc) := by
  intro blocks
  induction blocks with
  | nil => intro acc x; rfl
  | cons b rest ih =>
    intro acc x
    obtain ⟨k, body⟩ := b
    simp only [List.foldl_cons, lastBlock]
    rw [ih]
    cases lastBlock x rest with
    | some b2 => rfl
    | none =>
      dsimp only
      rw [lookupA_insertTable]
      by_cases hk : k = x
      · rw [if_pos hk, if_pos hk]
      · rw [if_neg hk, if_neg hk]

theorem firstOccsAux_nodup :
    ∀ (l seen : List String),
      (firstOccsAux seen l).Nodup ∧ ∀ x ∈ firstOccsAux seen l, x ∉ seen := by
  intro l
  induction l with
  | nil => intro seen; simp [firstOccsAux]
  | cons x xs ih =>
    intro seen
    by_cases hx : x ∈ seen
    · simp only [firstOccsAux, if_pos hx]
      exact ih seen
    · simp only [firstOccsAux, if_neg hx]
      obtain ⟨hnd, hni⟩ := ih (seen ++ [x])
      refine ⟨List.nodup_cons.mpr ⟨?_, hnd⟩, ?_⟩
      · intro hmem
        exact hni x hmem (by simp)
      · intro y hy
        rcases List.mem_cons.mp hy with h | h
        · subst h; exact hx
        · intro hsy
          exact hni y h (by simp [hsy])

theorem firstOccsAux_eq_self :
    ∀ (l seen : List String), l.Nodup → (∀ x ∈ l, x ∉ seen) → firstOccsAux seen l = l := by
  intro l
  induction l with
  | nil => intro seen _ _; rfl
  | cons x xs ih =>
    intro seen hnd hdis
    have hx : x ∉ seen := hdis x (by simp)
    simp only [firstOccsAux, if_neg hx]
    rw [ih (seen ++ [x]) (List.nodup_cons.mp hnd).2]
    intro y hy
    simp only [List.mem_append, List.mem_singleton]
    rintro (h | h)
    · exact hdis y (by simp [hy]) h
    · subst h; exact (List.nodup_cons.mp hnd).1 hy

theorem keys_foldIndexes :
    ∀ (idxs : List (String × String)) (ts : List (String × TableInfo)),
      ((idxs.foldl (fun acc ic => addIndex acc ic.1 ic.2) ts).map Prod.fst) = ts.map Prod.fst := by
  intro idxs
  induction idxs with
  | nil => intro ts; rfl
  | cons ic rest ih =>
    intro ts
    simp only [List.foldl_cons]
    rw [ih, keys_addIndex]

theorem preserves_foldIndexes :
    ∀ (idxs : List (String × String)) (ts : List (String × TableInfo)),
      ((idxs.foldl (fun acc ic => addIndex acc ic.1 ic.2) ts).map
        (fun p => (p.1, p.2.columns, p.2.foreign_keys))) =
        ts.map (fun p => (p.1, p.2.columns, p.2.foreign_keys)) := by
  intro idxs
  induction idxs with
  | nil => intro ts; rfl
  | cons ic rest ih =>
    intro ts
    simp only [List.foldl_cons]
    rw [ih, addIndex_preserves]

theorem lookupA_foldIndexes :
    ∀ (idxs : List (String × String)) (ts : List (String × TableInfo)) (x : String),
      lookupA x (idxs.foldl (fun acc ic => addIndex acc ic.1 ic.2) ts) =
        (lookupA x ts).map (fun v =>
          { v with indexes := v.indexes ++ (idxs.filter (fun ic => ic.1 == x)).map Prod.snd }) := by
  intro idxs
  induction idxs with
  | nil =>
    intro ts x
    simp only [List.foldl_nil, List.filter_nil, List.map_nil, List.append_nil]
    cases h : lookupA x ts with
    | none => simp [h]
    | some v => simp [h]
  | cons ic rest ih =>
    intro ts x
    obtain ⟨t, c⟩ := ic
    simp only [List.foldl_cons]
    rw [ih, lookupA_addIndex]
    by_cases ht : t = x
    · subst ht
      rw [if_pos rfl]
      simp only [List.filter_cons, List.map_cons]
      rw [if_pos (by simp)]
      cases lookupA t ts with
      | none => rfl
      | some v => simp
    · rw [if_neg ht]
      simp only [List.filter_cons]
      rw [if_neg (by simpa using ht)]

/-! ## Normal forms for the analyzer folds -/

theorem foldl_append_of {α β : Type} (f : List β → α → List β) (G : α → List β)
    (hf : ∀ acc x, f acc x = acc ++ G x) :
    ∀ (l : List α) (init : List β), l.foldl f init = init ++ (l.map G).flatten := by
  intro l
  induction l with
  | nil => intro init; simp
  | cons x l ih =>
    intro init
    rw [List.foldl_cons, hf, ih]
    simp

theorem foldl_guard_append {β : Type} (P : String → Prop) [DecidablePred P] (g : String → β) :
    ∀ (l : List String) (init : List β),
      l.foldl (fun acc fk => if P fk then acc else acc ++ [g fk]) init =
        init ++ (l.map (fun fk => if P fk then [] else [g fk])).flatten := by
  intro l
  induction l with
  | nil => intro init; simp
  | cons x l ih =>
    intro init
    rw [List.foldl_cons]
    by_cases hP : P x
    · rw [if_pos hP, ih]
      simp [hP]
    · rw [if_neg hP, ih]
      simp [hP]

theorem analyze_missing_eq (tables : List (String × TableInfo)) :
    analyze_missing_indexes tables =
      (tables.map (fun t =>
        (t.2.foreign_keys.map (fun fk =>
          if fk ∈ t.2.indexes then [] else [missingFkFinding t.1 fk])).flatten)).flatten := by
  unfold analyze_missing_indexes
  rw [foldl_append_of _ _
    (fun acc t => foldl_guard_append (fun fk => fk ∈ t.2.indexes)
      (missingFkFinding t.1) t.2.foreign_keys acc) tables []]
  simp

theorem analyze_missing_mem {tables : List (String × TableInfo)} {f : Finding} :
    f ∈ analyze_missing_indexes tables ↔
      ∃ t, t ∈ tables ∧ ∃ fk, fk ∈ t.2.foreign_keys ∧ fk ∉ t.2.indexes ∧
        f = missingFkFinding t.1 fk := by
  rw [analyze_missing_eq]
  simp only [List.mem_flatten, List.mem_map]
  constructor
  · rintro ⟨l, ⟨t, ht, rfl⟩, hf⟩
    obtain ⟨l2, hl2, hf2⟩ := List.mem_flatten.mp hf
    obtain ⟨fk, hfk, rfl⟩ := List.mem_map.mp hl2
    by_cases hidx : fk ∈ t.2.indexes
    · rw [if_pos hidx] at hf2
      cases hf2
    · rw [if_neg hidx] at hf2
      rcases List.mem_singleton.mp hf2 with rfl
      exact ⟨t, ht, fk, hfk, hidx, rfl⟩
  · rintro ⟨t, ht, fk, hfk, hidx, rfl⟩
    refine ⟨_, ⟨t, ht, rfl⟩, ?_⟩
    rw [List.mem_flatten]
    refine ⟨[missingFkFinding t.1 fk], ?_, by simp⟩
    rw [List.mem_map]
    exact ⟨fk, hfk, by rw [if_neg hidx]⟩

theorem countP_guard_flatten (fks idx : List String) (mk : String → Finding)
    (p : Finding → Bool) :
    ((fks.map (fun fk => if fk ∈ idx then [] else [mk fk])).flatten).countP p =
      (fks.map (fun fk => if fk ∈ idx then 0 else if p (mk fk) then 1 else 0)).sum := by
  induction fks with
  | nil => rfl
  | cons x l ih =>
    simp only [List.map_cons, List.flatten_cons, List.countP_append, List.sum_cons]
    rw [ih]
    congr 1
    by_cases hx : x ∈ idx
    · simp [hx]
    · simp [hx, List.countP_cons]

theorem sum_guard_count (idx : List String) (fk0 : String) (h0 : fk0 ∉ idx) :
    ∀ l : List String,
      (l.map (fun fk => if fk ∈ idx then (0 : Nat) else if fk = fk0 then 1 else 0)).sum =
        l.count fk0 := by
  intro l
  induction l with
  | nil => simp
  | cons x l ih =>
    simp only [List.map_cons, List.sum_cons, List.count_cons, ih]
    by_cases hx : x = fk0
    · subst hx
      rw [if_neg h0, if_pos rfl]
      simp only [beq_self_eq_true, if_true]
      omega
    · have h1 : (if x ∈ idx then (0 : Nat) else if x = fk0 then 1 else 0) = 0 := by
        by_cases hi : x ∈ idx <;> simp [hi, hx]
      have h2 : (x == fk0) = false := beq_eq_false_iff_ne.mpr hx
      rw [h1, h2]
      simp

theorem analyze_missing_countP (tables : List (String × TableInfo)) (p : Finding → Bool) :
    (analyze_missing_indexes tables).countP p =
      (tables.map (fun t =>
        (t.2.foreign_keys.map (fun fk =>
          if fk ∈ t.2.indexes then 0 else if p (missingFkFinding t.1 fk) then 1 else 0)).sum)).sum := by
  rw [analyze_missing_eq, List.countP_flatten, List.map_map]
  refine congrArg List.sum ?_
  apply List.map_congr_left
  intro t _
  simp only [Function.comp_apply]
  exact countP_guard_flatten _ _ _ _

theorem inner_sum_zero {idx : List String} {mk : String → Finding} {p : Finding → Bool}
    (hp : ∀ fk, p (mk fk) = false) (l : List String) :
    (l.map (fun fk => if fk ∈ idx then (0 : Nat) else if p (mk fk) then 1 else 0)).sum = 0 := by
  apply List.sum_eq_zero
  intro x hx
  obtain ⟨fk, _, rfl⟩ := List.mem_map.mp hx
  by_cases hi : fk ∈ idx <;> simp [hi, hp fk]

theorem lookupA_eq_of_mem {β : Type} :
    ∀ {ts : List (String × β)} {k : String} {v : β},
      (ts.map Prod.fst).Nodup → (k, v) ∈ ts → lookupA k ts = some v := by
  intro ts
  induction ts with
  | nil => intro k v _ h; cases h
  | cons e rest ih =>
    intro k v hnd hmem
    obtain ⟨ek, ev⟩ := e
    rcases List.mem_cons.mp hmem with h | h
    · cases h
      simp [lookupA]
    · have hne : ek ≠ k := by
        intro he
        subst he
        have : ek ∈ rest.map Prod.fst := List.mem_map.mpr ⟨(ek, v), h, rfl⟩
        exact (List.nodup_cons.mp hnd).1 this
      simp only [lookupA, if_neg hne]
      exact ih (List.nodup_cons.mp hnd).2 h

theorem addIndex_absent : ∀ (ts : List (String × TableInfo)) (t c : String),
    t ∉ ts.map Prod.fst → addIndex ts t c = ts := by
  intro ts
  induction ts with
  | nil => intro t c _; rfl
  | cons e rest ih =>
    intro t c h
    obtain ⟨k, v⟩ := e
    simp only [List.map_cons, List.mem_cons] at h
    push_neg at h
    have hk : ¬ (k = t) := fun he => h.1 he.symm
    simp only [addIndex, if_neg hk]
    rw [ih t c h.2]

theorem mem_insertTable {ts : List (String × TableInfo)} {n : String} {info : TableInfo}
    {e : String × TableInfo} (h : e ∈ insertTable ts n info) : e ∈ ts ∨ e = (n, info) := by
  induction ts with
  | nil => simpa [insertTable] using h
  | cons t rest ih =>
    obtain ⟨k, v⟩ := t
    by_cases hk : k = n
    · subst hk
      simp only [insertTable, if_pos rfl] at h
      rcases List.mem_cons.mp h with h1 | h1
      · right; rw [h1]
      · left; exact List.mem_cons_of_mem _ h1
    · simp only [insertTable, if_neg hk] at h
      rcases List.mem_cons.mp h with h1 | h1
      · left; rw [h1]; exact List.mem_cons_self _ _
      · rcases ih h1 with h2 | h2
        · left; exact List.mem_cons_of_mem _ h2
        · right; exact h2

theorem mem_buildTables_fold :
    ∀ (blocks : List (String × String)) (acc : List (String × TableInfo))
      (e : String × TableInfo),
      e ∈ blocks.foldl (fun acc b => insertTable acc b.1 (blockInfo b.2)) acc →
      e ∈ acc ∨ ∃ b ∈ blocks, e = (b.1, blockInfo b.2) := by
  intro blocks
  induction blocks with
  | nil => intro acc e h; exact Or.inl h
  | cons b rest ih =>
    intro acc e h
    simp only [List.foldl_cons] at h
    rcases ih _ e h with h1 | h1
    · rcases mem_insertTable h1 with h2 | h2
      · exact Or.inl h2
      · exact Or.inr ⟨b, by simp, h2⟩
    · obtain ⟨b2, hb2, he⟩ := h1
      exact Or.inr ⟨b2, List.mem_cons_of_mem _ hb2, he⟩

theorem parse_schema_keys (content : String) :
    (parse_schema content).map Prod.fst =
      firstOccs ((scanTables content.toList).map Prod.fst) := by
  unfold parse_schema
  rw [keys_foldIndexes]
  unfold buildTables
  rw [buildTables_fold_keys]
  rfl

theorem parse_schema_keys_nodup (content : String) :
    ((parse_schema content).map Prod.fst).Nodup := by
  rw [parse_schema_keys]
  exact (firstOccsAux_nodup _ []).1

theorem parse_schema_lookup (content x : String) :
    lookupA x (parse_schema content) =
      ((lastBlock x (scanTables content.toList)).map blockInfo).map
        (fun v => { v with indexes := v.indexes ++
          ((scanAddIndexes content.toList).filter (fun ic => ic.1 == x)).map Prod.snd }) := by
  unfold parse_schema
  rw [lookupA_foldIndexes]
  unfold buildTables
  rw [buildTables_fold_lookup]
  cases lastBlock x (scanTables content.toList) with
  | none => rfl
  | some b => rfl

/-- Each entry of the parsed model carries the column and foreign-key lists of
some block body (the index merge does not change them). -/
theorem parse_schema_entry_shape {content : String} {n : String} {info : TableInfo}
    (h : (n, info) ∈ parse_schema content) :
    ∃ body : String, info.columns = scanCols body.toList ∧
      info.foreign_keys = scanFks body.toList := by
  have h1 : (n, info.columns, info.foreign_keys) ∈
      (parse_schema content).map (fun p => (p.1, p.2.columns, p.2.foreign_keys)) :=
    List.mem_map.mpr ⟨(n, info), h, rfl⟩
  unfold parse_schema at h1
  rw [preserves_foldIndexes] at h1
  obtain ⟨e, he, hee⟩ := List.mem_map.mp h1
  rcases mem_buildTables_fold _ [] e he with h2 | h2
  · cases h2
  · obtain ⟨b, _, rfl⟩ := h2
    refine ⟨b.2, ?_, ?_⟩
    · exact (congrArg (fun q => q.2.1) hee).symm
    · exact (congrArg (fun q => q.2.2) hee).symm

theorem lastBlock_isSome_iff :
    ∀ (blocks : List (String × String)) (x : String),
      (lastBlock x blocks).isSome ↔ x ∈ blocks.map Prod.fst := by
  intro blocks
  induction blocks with
  | nil => intro x; simp [lastBlock]
  | cons b rest ih =>
    intro x
    obtain ⟨k, body⟩ := b
    simp only [lastBlock, List.map_cons, List.mem_cons]
    cases hl : lastBlock x rest with
    | some b2 =>
      simp only [Option.isSome_some, true_iff]
      right
      rw [← ih x, hl]
      rfl
    | none =>
      dsimp only
      by_cases hk : k = x
      · simp [hk]
      · rw [if_neg hk]
        simp only [Option.isSome_none, Bool.false_eq_true, false_iff]
        push_neg
        refine ⟨fun he => hk he.symm, ?_⟩
        rw [← ih x, hl]
        simp

theorem firstOccsAux_subset :
    ∀ (l seen : List String) (x : String), x ∈ firstOccsAux seen l → x ∈ l := by
  intro l
  induction l with
  | nil => intro seen x h; cases h
  | cons y ys ih =>
    intro seen x h
    simp only [firstOccsAux] at h
    by_cases hy : y ∈ seen
    · rw [if_pos hy] at h
      exact List.mem_cons_of_mem _ (ih _ x h)
    · rw [if_neg hy] at h
      rcases List.mem_cons.mp h with h1 | h1
      · subst h1; simp
      · exact List.mem_cons_of_mem _ (ih _ x h1)

theorem sum_single_entry (n : String) (info : TableInfo) (g : (String × TableInfo) → Nat) :
    ∀ tables : List (String × TableInfo), (tables.map Prod.fst).Nodup → (n, info) ∈ tables →
      (∀ t, t.1 ≠ n → g t = 0) → (tables.map g).sum = g (n, info) := by
  intro tables
  induction tables with
  | nil => intro _ h; cases h
  | cons t rest ih =>
    intro hnd hmem hzero
    rcases List.mem_cons.mp hmem with h | h
    · subst h
      have hkey : n ∉ rest.map Prod.fst := by
        simpa using (List.nodup_cons.mp hnd).1
      have hz : (rest.map g).sum = 0 := by
        apply List.sum_eq_zero
        intro x hx
        obtain ⟨t', ht', rfl⟩ := List.mem_map.mp hx
        refine hzero t' (fun he => hkey ?_)
        exact he ▸ List.mem_map.mpr ⟨t', ht', rfl⟩
      simp [hz]
    · have hne : t.1 ≠ n := by
        intro he
        apply (List.nodup_cons.mp hnd).1
        rw [he]
        exact List.mem_map.mpr ⟨(n, info), h, rfl⟩
      simp only [List.map_cons, List.sum_cons, hzero t hne]
      rw [ih (List.nodup_cons.mp hnd).2 h hzero]
      simp

/-! ## Claims C3, C8, C9 -/

/-- Claim C3: for every schema text with N table blocks, the parser returns a
model with exactly N tables unless two blocks share a name (last block wins
for that name); keys appear in order of first encounter, and `add_index`
statements whose table is absent from the model are skipped entirely. -/
theorem claim_C3 (content : String) :
    ((parse_schema content).map Prod.fst =
      firstOccs ((scanTables content.toList).map Prod.fst)) ∧
    (((scanTables content.toList).map Prod.fst).Nodup →
      (parse_schema content).length = (scanTables content.toList).length) ∧
    (∀ n info, lookupA n (parse_schema content) = some info →
      ∃ body, lastBlock n (scanTables content.toList) = some body ∧
        info.columns = scanCols body.toList ∧ info.foreign_keys = scanFks body.toList) ∧
    (∀ (ts : List (String × TableInfo)) (t c : String),
      t ∉ ts.map Prod.fst → addIndex ts t c = ts) := by
  refine ⟨parse_schema_keys content, ?_, ?_, addIndex_absent⟩
  · intro hnd
    have h2 : (parse_schema content).length =
        ((parse_schema content).map Prod.fst).length := (List.length_map _ _).symm
    rw [h2, parse_schema_keys content]
    unfold firstOccs
    rw [firstOccsAux_eq_self _ [] hnd (by simp)]
    exact List.length_map _ _
  · intro n info h
    rw [parse_schema_lookup] at h
    cases hl : lastBlock n (scanTables content.toList) with
    | none => rw [hl] at h; cases h
    | some body =>
      rw [hl] at h
      simp only [Option.map_some'] at h
      injection h with h2
      refine ⟨body, rfl, ?_, ?_⟩
      · rw [← h2]
        rfl
      · rw [← h2]
        rfl

/-- Claim C8: the schema parser is total (it is a Lean function, defined for
every string), the empty schema yields a model with zero tables, and the two
schema-based analyzers produce no findings on that model. -/
theorem claim_C8 :
    (∀ s : String, ∃ m : List (String × TableInfo), parse_schema s = m) ∧
    parse_schema "" = [] ∧
    analyze_missing_indexes (parse_schema "") = [] ∧
    analyze_boolean_columns (parse_schema "") = [] := by
  refine ⟨fun s => ⟨parse_schema s, rfl⟩, by decide, by decide, by decide⟩

/-- Claim C9: in every parsed model, the foreign-key list of a table is the
column list filtered by the `_id` suffix convention — in particular a sublist
of the column list, in the same relative order — and merging an index
statement never changes the column or foreign-key lists of any table. -/
theorem claim_C9 :
    (∀ (content : String) (n : String) (info : TableInfo),
      (n, info) ∈ parse_schema content →
        info.foreign_keys = info.columns.filter fkShapedStr ∧
        List.Sublist info.foreign_keys info.columns) ∧
    (∀ (ts : List (String × TableInfo)) (t c : String),
      (addIndex ts t c).map (fun p => (p.1, p.2.columns, p.2.foreign_keys)) =
        ts.map (fun p => (p.1, p.2.columns, p.2.foreign_keys))) := by
  constructor
  · intro content n info h
    obtain ⟨body, hc, hf⟩ := parse_schema_entry_shape h
    rw [hc, hf, scanFks_eq_filter]
    exact ⟨rfl, List.filter_sublist _⟩
  · exact addIndex_preserves

/-- Claim C1 counterexample: a schema block that declares the foreign-key
column `user_id` twice produces a model whose foreign-key list repeats the
column, and the analyzer then emits two findings for `(posts, user_id)`, not
exactly one. -/
theorem claim_C1_cex :
    lookupA "posts" (parse_schema exC1) =
      some { columns := ["user_id", "user_id"], foreign_keys := ["user_id", "user_id"],
             indexes := [] } ∧
    (analyze_missing_indexes (parse_schema exC1)).countP
      (fun f => f.table == "posts" && f.column == "user_id" &&
        f.type == "missing_foreign_key_index" && f.severity == "warning") = 2 := by
  constructor
  · decide
  · decide

/-- Claim C1 (amended): for a model with distinct table names, a foreign-key
column occurring exactly once in the foreign-key list of a table (the normal case
of a column declared once) and absent from its index list yields exactly one
warning finding of type `missing_foreign_key_index` for that (table, column)
pair, and every finding for that pair carries the literal suggestion
`add_index :<table>, :<column>`, which contains both names verbatim. -/
theorem claim_C1 (tables : List (String × TableInfo)) (n fk : String) (info : TableInfo)
    (hnd : (tables.map Prod.fst).Nodup) (hmem : (n, info) ∈ tables)
    (hcount : info.foreign_keys.count fk = 1) (hidx : fk ∉ info.indexes) :
    (analyze_missing_indexes tables).countP
        (fun f => f.table == n && f.column == fk &&
          f.type == "missing_foreign_key_index" && f.severity == "warning") = 1 ∧
    ∀ f ∈ analyze_missing_indexes tables, f.table = n → f.column = fk →
      f.suggestion = "add_index :" ++ n ++ ", :" ++ fk ∧
      List.IsInfix n.data f.suggestion.data ∧ List.IsInfix fk.data f.suggestion.data := by
  constructor
  · rw [analyze_missing_countP]
    have hz : ∀ t : String × TableInfo, t.1 ≠ n →
        (t.2.foreign_keys.map (fun fk' =>
          if fk' ∈ t.2.indexes then (0 : Nat)
          else if (missingFkFinding t.1 fk').table == n &&
              (missingFkFinding t.1 fk').column == fk &&
              (missingFkFinding t.1 fk').type == "missing_foreign_key_index" &&
              (missingFkFinding t.1 fk').severity == "warning" then 1 else 0)).sum = 0 := by
      intro t hne
      apply List.sum_eq_zero
      intro x hx
      obtain ⟨fk', _, rfl⟩ := List.mem_map.mp hx
      have hb : (t.1 == n) = false := beq_eq_false_iff_ne.mpr hne
      by_cases hi : fk' ∈ t.2.indexes
      · simp [hi]
      · simp [hi, missingFkFinding, hb]
    rw [sum_single_entry n info _ tables hnd hmem hz]
    have hpt : ∀ fk' : String,
        (if fk' ∈ info.indexes then (0 : Nat)
          else if (missingFkFinding n fk').table == n &&
              (missingFkFinding n fk').column == fk &&
              (missingFkFinding n fk').type == "missing_foreign_key_index" &&
              (missingFkFinding n fk').severity == "warning" then 1 else 0) =
        (if fk' ∈ info.indexes then 0 else if fk' = fk then 1 else 0) := by
      intro fk'
      by_cases hf : fk' = fk
      · subst hf
        simp [missingFkFinding]
      · have hb : (fk' == fk) = false := beq_eq_false_iff_ne.mpr hf
        simp [missingFkFinding, hb, hf]
    calc (info.foreign_keys.map (fun fk' =>
            if fk' ∈ info.indexes then (0 : Nat)
            else if (missingFkFinding n fk').table == n &&
                (missingFkFinding n fk').column == fk &&
                (missingFkFinding n fk').type == "missing_foreign_key_index" &&
                (missingFkFinding n fk').severity == "warning" then 1 else 0)).sum
        = (info.foreign_keys.map (fun fk' =>
            if fk' ∈ info.indexes then (0 : Nat) else if fk' = fk then 1 else 0)).sum := by
          exact congrArg List.sum (List.map_congr_left (fun fk' _ => hpt fk'))
      _ = info.foreign_keys.count fk := sum_guard_count info.indexes fk hidx info.foreign_keys
      _ = 1 := hcount
  · intro f hf hft hfc
    obtain ⟨t, ht, fk', hfk', hnidx, rfl⟩ := analyze_missing_mem.mp hf
    have ht1 : t.1 = n := hft
    have hcol : fk' = fk := hfc
    subst ht1 hcol
    refine ⟨rfl, ⟨"add_index :".data, (", :" ++ fk').data, ?_⟩,
      ⟨("add_index :" ++ t.1 ++ ", :").data, [], ?_⟩⟩
    · simp [missingFkFinding, String.data_append]
    · simp [missingFkFinding, String.data_append]

/-- Claim C1 witness: the amended claim at the one-column schema `exC1b`. -/
theorem claim_C1_witness :
    (analyze_missing_indexes (parse_schema exC1b)).countP
      (fun f => f.table == "posts" && f.column == "user_id" &&
        f.type == "missing_foreign_key_index" && f.severity == "warning") = 1 := by
  exact (claim_C1 (parse_schema exC1b) "posts" "user_id"
    { columns := ["user_id"], foreign_keys := ["user_id"], indexes := [] }
    (by decide) (by decide) (by decide) (by decide)).1

/-- Claim C2 counterexample: the schema `exC2` contains an index statement
covering `user_id` (in second position of the column list), yet the index
regex records only the first column `account_id`, so a
`missing_foreign_key_index` finding for `(posts, user_id)` is still
emitted. -/
theorem claim_C2_cex :
    scanAddIndexes exC2.toList = [("posts", "account_id")] ∧
    (∃ f ∈ analyze_missing_indexes (parse_schema exC2),
      f.table = "posts" ∧ f.column = "user_id" ∧ f.type = "missing_foreign_key_index" ∧
      f.severity = "warning") := by
  constructor
  · decide
  · decide

/-- Claim C2 (amended): if an `add_index` match records `user_id` for table
`t0` (that is, `user_id` is the sole or first column of the index's column
list), then no `missing_foreign_key_index` finding is emitted for
`(t0, user_id)`. -/
theorem claim_C2 (content : String) (t0 : String)
    (hidx : (t0, "user_id") ∈ scanAddIndexes content.toList) :
    ∀ f ∈ analyze_missing_indexes (parse_schema content),
      ¬ (f.table = t0 ∧ f.column = "user_id") := by
  rintro f hf ⟨hft, hfc⟩
  obtain ⟨t, ht, fk, hfk, hnidx, rfl⟩ := analyze_missing_mem.mp hf
  obtain ⟨t1, tinfo⟩ := t
  have ht1 : t1 = t0 := hft
  have hcol : fk = "user_id" := hfc
  subst ht1
  subst hcol
  have hl2 : lookupA t1 (parse_schema content) = some tinfo :=
    lookupA_eq_of_mem (parse_schema_keys_nodup content) ht
  have hl := parse_schema_lookup content t1
  cases hlb : lastBlock t1 (scanTables content.toList) with
  | none =>
    rw [hlb] at hl
    rw [hl2] at hl
    cases hl
  | some body =>
    rw [hlb] at hl
    rw [hl2] at hl
    simp only [Option.map_some'] at hl
    injection hl with hv
    have hmemidx : "user_id" ∈ ((scanAddIndexes content.toList).filter
        (fun ic => ic.1 == t1)).map Prod.snd :=
      List.mem_map.mpr ⟨(t1, "user_id"), List.mem_filter.mpr ⟨hidx, by simp⟩, rfl⟩
    apply hnidx
    show "user_id" ∈ tinfo.indexes
    rw [hv]
    simp only [List.mem_append]
    exact Or.inr hmemidx

/-- Claim C2 witness: the amended claim at `exC2b`, where `user_id` is the
first column of the column list of the index. -/
theorem claim_C2_witness :
    ¬ (missingFkFinding "posts" "user_id" ∈ analyze_missing_indexes (parse_schema exC2b)) := by
  intro hmem
  exact claim_C2 exC2b "posts" (by decide) _ hmem ⟨rfl, rfl⟩

/-- Claim C3 witness: a two-block schema yields a two-table model. -/
theorem claim_C3_witness : (parse_schema exC3).length = 2 := by
  have h := (claim_C3 exC3).2.1 (by decide)
  rw [h]
  decide

/-- Claim C9 witness: the amended invariant applied at the one-table schema. -/
theorem claim_C9_witness :
    ({ columns := ["user_id"], foreign_keys := ["user_id"], indexes := [] } :
        TableInfo).foreign_keys =
      ({ columns := ["user_id"], foreign_keys := ["user_id"], indexes := [] } :
        TableInfo).columns.filter fkShapedStr :=
  (claim_C9.1 exC1b "posts"
    { columns := ["user_id"], foreign_keys := ["user_id"], indexes := [] } (by decide)).1

theorem lineIssue_eq_some {file_path : String} {lines : List (List Char)} {i : Nat}
    {line : List Char} {f : NIssue} :
    lineIssue file_path lines i line = some f ↔
      fetchSearch line = true ∧ eagerSearch (contextOf lines i) = false ∧
      ∃ var, assignSearch line = some var ∧
        ((lines.drop i).take (min lines.length (i + 20) - i)).any (chainSearch var) = true ∧
        f = nPlusOneFinding file_path i := by
  unfold lineIssue
  by_cases h1 : fetchSearch line
  · rw [if_pos h1]
    by_cases h2 : eagerSearch (contextOf lines i)
    · rw [if_pos h2]
      simp [h1, h2]
    · rw [if_neg h2]
      cases h3 : assignSearch line with
      | none =>
        simp only [Bool.not_eq_true] at h2
        simp [h1, h2]
      | some var =>
        by_cases h4 : ((lines.drop i).take (min lines.length (i + 20) - i)).any
            (chainSearch var) = true
        · dsimp only
          rw [if_pos h4]
          simp only [Bool.not_eq_true] at h2
          simp only [Option.some_inj, h1, h2, true_and]
          constructor
          · rintro rfl
            exact ⟨var, rfl, h4, rfl⟩
          · rintro ⟨var2, hv2, _, rfl⟩
            rfl
        · dsimp only
          rw [if_neg h4]
          simp only [Bool.not_eq_true] at h2 h4
          simp only [h1, h2, true_and]
          constructor
          · rintro h; cases h
          · rintro ⟨var2, hv2, hany, rfl⟩
            rw [Option.some_inj.mp hv2] at h4
            rw [h4] at hany
            cases hany
  · rw [if_neg h1]
    simp only [Bool.not_eq_true] at h1
    simp [h1]

/-- Claim C4 (amended): a `potential_n_plus_one` warning is emitted at line
`i` exactly when line `i` matches a bare query-fetch call, no eager-loading
call occurs in the joined window of surrounding lines, the FIRST
instance-variable assignment match `@var =` on the line (not necessarily the
variable the fetch result is assigned to) has a two-level member access
`@var.a.b` within the 20 lines after line `i`. -/
theorem claim_C4 (file_path content : String) (f : NIssue) :
    f ∈ analyze_controller_action file_path content ↔
      ∃ i line, 1 ≤ i ∧ (splitNl content.toList).get? (i - 1) = some line ∧
        fetchSearch line = true ∧
        eagerSearch (contextOf (splitNl content.toList) i) = false ∧
        ∃ var, assignSearch line = some var ∧
          (∃ j line2, i + 1 ≤ j ∧ j ≤ i + 20 ∧
            (splitNl content.toList).get? (j - 1) = some line2 ∧
            chainSearch var line2 = true) ∧
          f = nPlusOneFinding file_path i := by
  unfold analyze_controller_action
  rw [List.mem_filterMap]
  constructor
  · rintro ⟨⟨i, line⟩, hmem, hli⟩
    rw [List.mk_mem_enumFrom_iff_le_and_getElem?_sub] at hmem
    obtain ⟨hi1, hget⟩ := hmem
    obtain ⟨h1, h2, var, h3, h4, rfl⟩ := lineIssue_eq_some.mp hli
    refine ⟨i, line, hi1, by simpa using hget, h1, h2, var, h3, ?_, rfl⟩
    rw [List.any_eq_true] at h4
    obtain ⟨l2, hl2, hch⟩ := h4
    rw [List.mem_iff_get?] at hl2
    obtain ⟨k, hk⟩ := hl2
    have hkt : k < min (splitNl content.toList).length (i + 20) - i := by
      by_contra hge
      push_neg at hge
      have hlen : (((splitNl content.toList).drop i).take
          (min (splitNl content.toList).length (i + 20) - i)).length ≤ k := by
        have h5 := List.length_take_le
          (min (splitNl content.toList).length (i + 20) - i)
          ((splitNl content.toList).drop i)
        omega
      rw [List.get?_eq_none.mpr hlen] at hk
      cases hk
    rw [List.get?_take hkt, List.get?_drop] at hk
    have hmin : min (splitNl content.toList).length (i + 20) ≤ i + 20 := Nat.min_le_right _ _
    refine ⟨i + k + 1, l2, by omega, by omega, ?_, hch⟩
    have he : i + k + 1 - 1 = i + k := by omega
    rw [he]
    exact hk
  · rintro ⟨i, line, hi1, hget, h1, h2, var, h3, ⟨j, line2, hj1, hj2, hget2, hch⟩, rfl⟩
    refine ⟨(i, line), ?_, ?_⟩
    · rw [List.mk_mem_enumFrom_iff_le_and_getElem?_sub]
      exact ⟨hi1, by simpa using hget⟩
    · rw [lineIssue_eq_some]
      refine ⟨h1, h2, var, h3, ?_, rfl⟩
      rw [List.any_eq_true]
      refine ⟨line2, ?_, hch⟩
      rw [List.mem_iff_get?]
      refine ⟨j - 1 - i, ?_⟩
      have hjlen : j - 1 < (splitNl content.toList).length := by
        by_contra hge
        push_neg at hge
        rw [List.get?_eq_none.mpr hge] at hget2
        cases hget2
      have hlt : j - 1 - i < min (splitNl content.toList).length (i + 20) - i := by
        have hm : j - 1 < min (splitNl content.toList).length (i + 20) :=
          Nat.lt_min.mpr ⟨hjlen, by omega⟩
        omega
      rw [List.get?_take hlt, List.get?_drop]
      have he : i + (j - 1 - i) = j - 1 := by omega
      rw [he]
      exact hget2

/-- Claim C4 counterexample: at line 1 of `exC4` every condition of the claim
holds with the fetch result assigned to `@posts` (a bare fetch, no eager
loading nearby, `@posts.user.name` on the next line), yet the analyzer emits
no finding, because it keys the look-ahead on the first assignment match
`@count` of the line. -/
theorem claim_C4_cex :
    (fetchSearch "@count = 0; @posts = Post.all".toList = true ∧
     eagerSearch (contextOf (splitNl exC4.toList) 1) = false ∧
     assignAnyOf "posts" "@count = 0; @posts = Post.all".toList = true ∧
     chainSearch "posts" "@posts.user.name".toList = true) ∧
    analyze_controller_action "app/controllers/posts_controller.rb" exC4 = [] := by
  exact ⟨⟨by decide, by decide, by decide, by decide⟩, by decide⟩

theorem mem_reFindIterAux {α : Type} {m : List Char → Option (α × List Char)} :
    ∀ {fuel : Nat} {cs : List Char} {a : α},
      a ∈ reFindIterAux m fuel cs → ∃ s r, m s = some (a, r) := by
  intro fuel
  induction fuel with
  | zero => intro cs a h; cases h
  | succ fuel ih =>
    intro cs a h
    cases cs with
    | nil => cases h
    | cons c cs =>
      simp only [reFindIterAux] at h
      cases hm : m (c :: cs) with
      | none =>
        rw [hm] at h
        exact ih h
      | some p =>
        obtain ⟨b, rest⟩ := p
        rw [hm] at h
        rcases List.mem_cons.mp h with h1 | h1
        · subst h1; exact ⟨c :: cs, rest, hm⟩
        · exact ih h1

theorem whereKw_word {s : List Char} {col : String} {r : List Char}
    (h : matchWhereKwAt s = some (col, r)) : ∀ ch ∈ col.data, isWordChar ch = true := by
  unfold matchWhereKwAt at h
  simp only [Option.bind_eq_some, Option.map_eq_some'] at h
  obtain ⟨cs1, h1, pn, h2, cs2, h3, hfin⟩ := h
  obtain ⟨e⟩ := hfin
  exact (plusRun_some h2).2.2

theorem whereRaw_word {s : List Char} {col : String} {r : List Char}
    (h : matchWhereRawAt s = some (col, r)) : ∀ ch ∈ col.data, isWordChar ch = true := by
  unfold matchWhereRawAt at h
  simp only [Option.bind_eq_some, Option.map_eq_some'] at h
  obtain ⟨cs1, h1, cs2, h2, pn, h3, cs3, h4, hfin⟩ := h
  obtain ⟨e⟩ := hfin
  exact (plusRun_some h3).2.2

theorem whereCols_word {content : String} {c : String} (h : c ∈ whereCols content) :
    ∀ ch ∈ c.data, isWordChar ch = true := by
  unfold whereCols at h
  rcases List.mem_append.mp h with h1 | h1
  · obtain ⟨s, r, hm⟩ := mem_reFindIterAux h1
    exact whereKw_word hm
  · obtain ⟨s, r, hm⟩ := mem_reFindIterAux h1
    exact whereRaw_word hm

theorem marker_split_inj {y1 y2 : List Char} :
    ∀ {x1 x2 : List Char}, (∀ ch ∈ x1, ch ≠ ':') → (∀ ch ∈ x2, ch ≠ ':') →
      x1 ++ ':' :: y1 = x2 ++ ':' :: y2 → x1 = x2 ∧ y1 = y2 := by
  intro x1
  induction x1 with
  | nil =>
    intro x2 _ h2 he
    cases x2 with
    | nil => simpa using he
    | cons a t =>
      simp only [List.nil_append, List.cons_append, List.cons.injEq] at he
      exact absurd he.1.symm (h2 a (by simp))
  | cons a t ih =>
    intro x2 h1 h2 he
    cases x2 with
    | nil =>
      simp only [List.cons_append, List.nil_append, List.cons.injEq] at he
      exact absurd he.1 (h1 a (by simp))
    | cons a2 t2 =>
      simp only [List.cons_append, List.cons.injEq] at he
      obtain ⟨rfl, he2⟩ := he
      obtain ⟨ht, hy⟩ := ih (fun ch hc => h1 ch (by simp [hc]))
        (fun ch hc => h2 ch (by simp [hc])) he2
      exact ⟨by rw [ht], hy⟩

/-- The dedup key determines the stem and the column, because captured
columns contain no `:` (they are `\w+` captures). -/
theorem keyOf_inj {s1 s2 c1 c2 : String}
    (h1 : ∀ ch ∈ c1.data, isWordChar ch = true) (h2 : ∀ ch ∈ c2.data, isWordChar ch = true)
    (he : s1 ++ ":" ++ c1 = s2 ++ ":" ++ c2) : s1 = s2 ∧ c1 = c2 := by
  have hd : s1.data ++ ':' :: c1.data = s2.data ++ ':' :: c2.data := by
    have := congrArg String.data he
    simpa [String.data_append] using this
  have hr : c1.data.reverse ++ ':' :: s1.data.reverse =
      c2.data.reverse ++ ':' :: s2.data.reverse := by
    have := congrArg List.reverse hd
    simpa [List.reverse_append] using this
  have hw : ∀ (c : String), (∀ ch ∈ c.data, isWordChar ch = true) →
      ∀ ch ∈ c.data.reverse, ch ≠ ':' := by
    intro c hc ch hch he2
    subst he2
    exact absurd (hc _ (List.mem_reverse.mp hch)) (by decide)
  obtain ⟨hcr, hsr⟩ := marker_split_inj (hw c1 h1) (hw c2 h2) hr
  constructor
  · apply String.ext
    have := congrArg List.reverse hsr
    simpa using this
  · apply String.ext
    have := congrArg List.reverse hcr
    simpa using this

theorem whereStep_seen_mono (file_path : String) :
    ∀ (cols : List String) (st : List String × List WFinding) (k : String),
      k ∈ st.1 → k ∈ (whereStep file_path cols st).1 := by
  intro cols
  induction cols with
  | nil => intro st k h; exact h
  | cons col rest ih =>
    intro st k h
    show k ∈ (whereStep file_path rest _).1
    by_cases hk : (stemOf file_path ++ ":" ++ col) ∈ st.1
    · exact ih _ k (by simpa [whereStep, List.foldl_cons, if_pos hk] using h)
    · exact ih _ k (by simp [whereStep, List.foldl_cons, if_neg hk, List.mem_cons, h])

theorem whereStep_adds (file_path : String) :
    ∀ (cols : List String) (st : List String × List WFinding) (c : String),
      c ∈ cols → (stemOf file_path ++ ":" ++ c) ∈ (whereStep file_path cols st).1 := by
  intro cols
  induction cols with
  | nil => intro st c h; cases h
  | cons col rest ih =>
    intro st c h
    rcases List.mem_cons.mp h with h1 | h1
    · subst h1
      by_cases hk : (stemOf file_path ++ ":" ++ c) ∈ st.1
      · exact whereStep_seen_mono file_path rest _ _
          (by simpa [whereStep, List.foldl_cons, if_pos hk] using hk)
      · apply whereStep_seen_mono file_path rest
        simp [whereStep, List.foldl_cons, if_neg hk]
    · exact ih _ c h1

theorem whereStep_inv (file_path : String) :
    ∀ (cols : List String) (st : List String × List WFinding),
      (∀ c ∈ cols, ∀ ch ∈ String.data c, isWordChar ch = true) →
      ((st.2.map keyOf).Nodup ∧ (∀ f ∈ st.2, keyOf f ∈ st.1) ∧
        (∀ k ∈ st.1, ∃ f ∈ st.2, keyOf f = k) ∧
        (∀ f ∈ st.2, ∀ ch ∈ f.column.data, isWordChar ch = true)) →
      (((whereStep file_path cols st).2.map keyOf).Nodup ∧
        (∀ f ∈ (whereStep file_path cols st).2, keyOf f ∈ (whereStep file_path cols st).1) ∧
        (∀ k ∈ (whereStep file_path cols st).1,
          ∃ f ∈ (whereStep file_path cols st).2, keyOf f = k) ∧
        (∀ f ∈ (whereStep file_path cols st).2,
          ∀ ch ∈ f.column.data, isWordChar ch = true)) := by
  intro cols
  induction cols with
  | nil => intro st _ hinv; exact hinv
  | cons col rest ih =>
    intro st hcols hinv
    obtain ⟨hnd, hkeys, hseen, hword⟩ := hinv
    have hun : whereStep file_path (col :: rest) st =
        whereStep file_path rest (if (stemOf file_path ++ ":" ++ col) ∈ st.1 then st
          else ((stemOf file_path ++ ":" ++ col) :: st.1,
            st.2 ++ [whereFinding file_path col])) := rfl
    rw [hun]
    by_cases hk : (stemOf file_path ++ ":" ++ col) ∈ st.1
    · rw [if_pos hk]
      exact ih st (fun c hc => hcols c (by simp [hc])) ⟨hnd, hkeys, hseen, hword⟩
    · rw [if_neg hk]
      have hkey : keyOf (whereFinding file_path col) = stemOf file_path ++ ":" ++ col := rfl
      refine ih ((stemOf file_path ++ ":" ++ col) :: st.1,
          st.2 ++ [whereFinding file_path col])
        (fun c hc => hcols c (by simp [hc])) ⟨?_, ?_, ?_, ?_⟩
      · simp only [List.map_append, List.map_cons, List.map_nil]
        rw [List.nodup_append]
        refine ⟨hnd, by simp, ?_⟩
        intro k hk1 hk2
        simp only [List.mem_cons, List.not_mem_nil, or_false] at hk2
        subst hk2
        obtain ⟨f, hf, hfk⟩ := List.mem_map.mp hk1
        rw [hkey] at hfk
        exact hk (hfk ▸ hkeys f hf)
      · intro f hf
        rcases List.mem_append.mp hf with h1 | h1
        · exact List.mem_cons_of_mem _ (hkeys f h1)
        · simp only [List.mem_singleton] at h1
          subst h1
          rw [hkey]
          simp
      · intro k hk1
        rcases List.mem_cons.mp hk1 with h1 | h1
        · subst h1
          exact ⟨whereFinding file_path col, by simp, hkey⟩
        · obtain ⟨f, hf, hfk⟩ := hseen k h1
          exact ⟨f, by simp [hf], hfk⟩
      · intro f hf
        rcases List.mem_append.mp hf with h1 | h1
        · exact hword f h1
        · simp only [List.mem_singleton] at h1
          subst h1
          exact hcols col (by simp)

theorem analyze_where_fold_inv :
    ∀ (files : List (String × String)) (st : List String × List WFinding),
      ((st.2.map keyOf).Nodup ∧ (∀ f ∈ st.2, keyOf f ∈ st.1) ∧
        (∀ k ∈ st.1, ∃ f ∈ st.2, keyOf f = k) ∧
        (∀ f ∈ st.2, ∀ ch ∈ f.column.data, isWordChar ch = true)) →
      (let fin := files.foldl (fun st f => whereStep f.1 (whereCols f.2) st) st
       (fin.2.map keyOf).Nodup ∧ (∀ f ∈ fin.2, keyOf f ∈ fin.1) ∧
        (∀ k ∈ fin.1, ∃ f ∈ fin.2, keyOf f = k) ∧
        (∀ f ∈ fin.2, ∀ ch ∈ f.column.data, isWordChar ch = true)) := by
  intro files
  induction files with
  | nil => intro st hinv; exact hinv
  | cons fl rest ih =>
    intro st hinv
    exact ih _ (whereStep_inv fl.1 (whereCols fl.2) st
      (fun c hc => whereCols_word hc) hinv)

theorem analyze_where_fold_mono :
    ∀ (files : List (String × String)) (st : List String × List WFinding) (k : String),
      k ∈ st.1 → k ∈ (files.foldl (fun st f => whereStep f.1 (whereCols f.2) st) st).1 := by
  intro files
  induction files with
  | nil => intro st k h; exact h
  | cons fl rest ih =>
    intro st k h
    exact ih _ k (whereStep_seen_mono fl.1 (whereCols fl.2) st k h)

theorem analyze_where_fold_adds :
    ∀ (files : List (String × String)) (st : List String × List WFinding)
      (p content c : String), (p, content) ∈ files → c ∈ whereCols content →
      (stemOf p ++ ":" ++ c) ∈
        (files.foldl (fun st f => whereStep f.1 (whereCols f.2) st) st).1 := by
  intro files
  induction files with
  | nil => intro st p content c h; cases h
  | cons fl rest ih =>
    intro st p content c hmem hc
    rcases List.mem_cons.mp hmem with h1 | h1
    · subst h1
      exact analyze_where_fold_mono rest _ _ (whereStep_adds p (whereCols content) st c hc)
    · exact ih _ p content c h1 hc

/-- Claim C5 (amended): the WHERE-clause analyzer emits at most one finding
per dedup key (file stem, column) — so a file filtering the same column
twice yields exactly one finding — and for every scanned file and every
column it filters on, some finding with the stem of that file and that column is
emitted.  Per-file granularity holds only up to stems: two distinct files
sharing a stem are conflated. -/
theorem claim_C5 (files : List (String × String)) :
    ((analyze_where_clauses files).map keyOf).Nodup ∧
    (∀ p content, (p, content) ∈ files → ∀ c, c ∈ whereCols content →
      ∃ f ∈ analyze_where_clauses files, stemOf f.file = stemOf p ∧ f.column = c) := by
  have hinv := analyze_where_fold_inv files ([], [])
    (by refine ⟨by simp, by simp, by simp, by simp⟩)
  obtain ⟨hnd, hkeys, hseen, hword⟩ := hinv
  constructor
  · exact hnd
  · intro p content hmem c hc
    have hin := analyze_where_fold_adds files ([], []) p content c hmem hc
    obtain ⟨f, hf, hfk⟩ := hseen _ hin
    obtain ⟨hs, hcol⟩ := keyOf_inj (hword f hf) (whereCols_word hc) hfk
    exact ⟨f, hf, hs, hcol⟩

/-- Claim C5 counterexample: both files filter on `status`, but the dedup key
uses only the file STEM, so the second file gets no finding — per-file
granularity is lost across distinct files sharing a stem. -/
theorem claim_C5_cex :
    whereCols "User.where(status: 1)" = ["status"] ∧
    (analyze_where_clauses exC5).map (fun f => f.file) = ["app/models/admin/user.rb"] := by
  exact ⟨by decide, by decide⟩

/-- Claim C5 witness: the amended claim applied at `exC5b` — the second file
has a distinct stem, so it receives its own finding. -/
theorem claim_C5_witness :
    ∃ f ∈ analyze_where_clauses exC5b,
      stemOf f.file = stemOf "app/models/post.rb" ∧ f.column = "status" :=
  (claim_C5 exC5b).2 "app/models/post.rb" "Post.where(status: 1)" (by decide)
    "status" (by decide)

theorem analyze_connection_pool_shape (cfg : List (String × YVal)) (e : String) :
    ∀ f ∈ analyze_connection_pool cfg e,
      f.setting = "pool" ∧ (f.severity = "warning" ∨ f.severity = "info") := by
  intro f h
  unfold analyze_connection_pool at h
  split at h
  · simp only [List.mem_singleton] at h; subst h; exact ⟨rfl, Or.inl rfl⟩
  · split at h
    · split at h
      · simp only [List.mem_singleton] at h; subst h; exact ⟨rfl, Or.inl rfl⟩
      · split at h
        · simp only [List.mem_singleton] at h; subst h; exact ⟨rfl, Or.inr rfl⟩
        · cases h
    · cases h

theorem analyze_timeouts_shape (cfg : List (String × YVal)) (e : String)
    {l : List CFinding} (hok : analyze_timeouts cfg e = Except.ok l) :
    ∀ f ∈ l, f.setting ∈ (["statement_timeout", "connect_timeout", "checkout_timeout"] :
        List String) ∧ (f.severity = "warning" ∨ f.severity = "info") := by
  intro f h
  unfold analyze_timeouts at hok
  have hsplit : ∀ st_issues : List CFinding,
      (∀ g ∈ st_issues, g = stFinding e) →
      f ∈ st_issues ++
        (if hasKey "connect_timeout" cfg = false then [ctFinding e] else []) ++
        (if hasKey "checkout_timeout" cfg = false then [ckFinding e] else []) →
      f.setting ∈ (["statement_timeout", "connect_timeout", "checkout_timeout"] :
        List String) ∧ (f.severity = "warning" ∨ f.severity = "info") := by
    intro st_issues hst hmem
    rcases List.mem_append.mp hmem with h1 | h1
    · rcases List.mem_append.mp h1 with h2 | h2
      · rw [hst f h2]; exact ⟨by simp [stFinding], Or.inl rfl⟩
      · split at h2
        · simp only [List.mem_singleton] at h2; subst h2
          exact ⟨by simp [ctFinding], Or.inr rfl⟩
        · cases h2
    · split at h1
      · simp only [List.mem_singleton] at h1; subst h1
        exact ⟨by simp [ckFinding], Or.inr rfl⟩
      · cases h1
  cases hst : st_issues_of cfg e with
  | error err => rw [hst] at hok; simp [Except.map] at hok
  | ok st =>
    rw [hst] at hok
    simp only [Except.map, Except.ok.injEq] at hok
    subst hok
    refine hsplit st ?_ h
    intro g hg
    unfold st_issues_of at hst
    split at hst
    · cases hst; simpa using hg
    · split at hst
      · cases hst
      · cases hst
        split at hg
        · cases hg
        · simpa using hg

theorem analyze_prepared_statements_shape (cfg : List (String × YVal)) (e : String) :
    ∀ f ∈ analyze_prepared_statements cfg e,
      f.setting = "prepared_statements" ∧ (f.severity = "warning" ∨ f.severity = "info") := by
  intro f h
  unfold analyze_prepared_statements at h
  split at h
  · simp only [List.mem_singleton] at h; subst h; exact ⟨rfl, Or.inr rfl⟩
  · split at h
    · simp only [List.mem_singleton] at h; subst h; exact ⟨rfl, Or.inr rfl⟩
    · cases h
  · cases h

theorem analyze_reaping_frequency_shape (cfg : List (String × YVal)) (e : String) :
    ∀ f ∈ analyze_reaping_frequency cfg e,
      f.setting = "reaping_frequency" ∧ (f.severity = "warning" ∨ f.severity = "info") := by
  intro f h
  unfold analyze_reaping_frequency at h
  split at h
  · simp only [List.mem_singleton] at h; subst h; exact ⟨rfl, Or.inr rfl⟩
  · cases h

theorem check_ssl_configuration_shape (cfg : List (String × YVal)) (e : String) :
    ∀ f ∈ check_ssl_configuration cfg e,
      f.setting = "sslmode" ∧ (f.severity = "warning" ∨ f.severity = "info") := by
  intro f h
  unfold check_ssl_configuration at h
  split at h
  · split at h
    · simp only [List.mem_singleton] at h; subst h; exact ⟨rfl, Or.inl rfl⟩
    · cases h
  · cases h

theorem analyze_env_shape (config : List (String × YVal)) (e : String)
    {l : List CFinding} (hok : analyze_env config e = Except.ok l) :
    ∀ f ∈ l, f.setting ∈ (["pool", "statement_timeout", "connect_timeout",
        "checkout_timeout", "prepared_statements", "reaping_frequency", "sslmode"] :
        List String) ∧ (f.severity = "warning" ∨ f.severity = "info") := by
  intro f h
  unfold analyze_env at hok
  cases hl : lookupA e config with
  | none =>
    rw [hl] at hok
    cases hok
    cases h
  | some v =>
    rw [hl] at hok
    cases v with
    | dict env_config =>
      dsimp only at hok
      cases ht : analyze_timeouts env_config e with
      | error err => rw [ht] at hok; simp [Except.map] at hok
      | ok t =>
        rw [ht] at hok
        simp only [Except.map, Except.ok.injEq] at hok
        subst hok
        rcases List.mem_append.mp h with h1 | h1
        · rcases List.mem_append.mp h1 with h2 | h2
          · rcases List.mem_append.mp h2 with h3 | h3
            · rcases List.mem_append.mp h3 with h4 | h4
              · obtain ⟨hs, hv⟩ := analyze_connection_pool_shape env_config e f h4
                exact ⟨by simp [hs], hv⟩
              · obtain ⟨hs, hv⟩ := analyze_timeouts_shape env_config e ht f h4
                simp only [List.mem_cons, List.not_mem_nil, or_false] at hs
                rcases hs with h5 | h5 | h5 <;> simp [h5, hv]
            · obtain ⟨hs, hv⟩ := analyze_prepared_statements_shape env_config e f h3
              exact ⟨by simp [hs], hv⟩
          · obtain ⟨hs, hv⟩ := analyze_reaping_frequency_shape env_config e f h2
            exact ⟨by simp [hs], hv⟩
        · obtain ⟨hs, hv⟩ := check_ssl_configuration_shape env_config e f h1
          exact ⟨by simp [hs], hv⟩
    | null => cases hok; cases h
    | bool b => cases hok; cases h
    | int n => cases hok; cases h
    | str s2 => cases hok; cases h

/-- Claim C6 (amended): every finding of the connection-settings analyzers
has a type in the §6 enumeration EXTENDED with `extensions` (the
pg_stat_statements suggestion emitted by `suggest_performance_extensions`,
which the §6 list omits), and has a warning/info severity with the
message/recommendation shape of the `CFinding` record. -/
theorem claim_C6 (config : List (String × YVal)) (l : List CFinding)
    (hok : config_findings config = Except.ok l) :
    ∀ f ∈ l, specFindingType f.setting ∈ connectionSettingsTypes ++ ["extensions"] ∧
      (f.severity = "warning" ∨ f.severity = "info") := by
  intro f h
  unfold config_findings at hok
  cases hd : analyze_env config "development" with
  | error err => rw [hd] at hok; cases hok
  | ok d =>
    rw [hd] at hok
    cases hte : analyze_env config "test" with
    | error err => rw [hte] at hok; cases hok
    | ok t =>
      rw [hte] at hok
      cases hp : analyze_env config "production" with
      | error err => rw [hp] at hok; cases hok
      | ok p =>
        rw [hp] at hok
        simp only [Except.bind, Except.map, Except.ok.injEq] at hok
        subst hok
        have hone : ∀ (e : String) (l2 : List CFinding),
            analyze_env config e = Except.ok l2 → f ∈ l2 →
            specFindingType f.setting ∈ connectionSettingsTypes ++ ["extensions"] ∧
              (f.severity = "warning" ∨ f.severity = "info") := by
          intro e l2 hok2 hmem
          obtain ⟨hs, hv⟩ := analyze_env_shape config e hok2 f hmem
          refine ⟨?_, hv⟩
          simp only [List.mem_cons, List.not_mem_nil, or_false] at hs
          rcases hs with h5 | h5 | h5 | h5 | h5 | h5 | h5 <;>
            simp [specFindingType, h5, connectionSettingsTypes]
        rcases List.mem_append.mp h with h1 | h1
        · rcases List.mem_append.mp h1 with h2 | h2
          · rcases List.mem_append.mp h2 with h3 | h3
            · exact hone "development" d hd h3
            · exact hone "test" t hte h3
          · exact hone "production" p hp h2
        · simp only [suggest_performance_extensions, List.mem_singleton] at h1
          subst h1
          exact ⟨by simp [specFindingType, pgStatFinding], Or.inr rfl⟩

/-- Claim C6 counterexample: on the empty configuration the pipeline emits
the pg_stat_statements suggestion, whose type `extensions` is not in the
seven-element enumeration of the spec. -/
theorem claim_C6_cex :
    ∃ l, config_findings [] = Except.ok l ∧
      ∃ f ∈ l, specFindingType f.setting ∉ connectionSettingsTypes := by
  exact ⟨suggest_performance_extensions "all", rfl, by decide⟩

/-- Claim C6 witness: the amended claim applied to the empty configuration
and the extension suggestion it emits. -/
theorem claim_C6_witness :
    ∃ f ∈ suggest_performance_extensions "all",
      specFindingType f.setting ∈ connectionSettingsTypes ++ ["extensions"] ∧
        (f.severity = "warning" ∨ f.severity = "info") := by
  refine ⟨pgStatFinding "all", by decide, ?_⟩
  exact claim_C6 [] (suggest_performance_extensions "all") rfl
    (pgStatFinding "all") (by decide)

/-- Claim C7 (amended): given a successful setup, the N+1 entry point exits 1
exactly when a warning-severity finding exists and 0 otherwise, and the
index-analysis entry point always exits 0; the config entry point exits 0
whenever its analyzers complete without raising — but its timeout analyzer
raises a TypeError when the `variables` value of an environment is not a dict or
a string, in which case the process exits 1 rather than 0. -/
theorem claim_C7 :
    (∀ (controllers erbs hamls : List (String × String)),
      (n_plus_one_exit controllers erbs hamls = 1 ↔
        ∃ f ∈ n_plus_one_issues controllers erbs hamls, f.severity = "warning") ∧
      (n_plus_one_exit controllers erbs hamls = 0 ↔
        ¬ ∃ f ∈ n_plus_one_issues controllers erbs hamls, f.severity = "warning")) ∧
    (∀ (schema_content : String) (files : List (String × String)),
      analyze_indexes_exit schema_content files = 0) ∧
    (∀ (config : List (String × YVal)) (l : List CFinding),
      config_findings config = Except.ok l → config_main_exit config = 0) := by
  refine ⟨?_, fun _ _ => rfl, ?_⟩
  · intro cs es hs
    unfold n_plus_one_exit
    have hiff : ((n_plus_one_issues cs es hs).filter
        (fun i => i.severity == "warning")).isEmpty = true ↔
        ¬ ∃ f ∈ n_plus_one_issues cs es hs, f.severity = "warning" := by
      rw [List.isEmpty_iff]
      constructor
      · rintro hnil ⟨f, hf, hsev⟩
        have hmem : f ∈ (n_plus_one_issues cs es hs).filter
            (fun i => i.severity == "warning") :=
          List.mem_filter.mpr ⟨hf, by simp [hsev]⟩
        rw [hnil] at hmem
        cases hmem
      · intro hne
        by_contra hnn
        obtain ⟨f, hf⟩ := List.exists_mem_of_ne_nil _ hnn
        obtain ⟨hf1, hf2⟩ := List.mem_filter.mp hf
        exact hne ⟨f, hf1, by simpa using hf2⟩
    by_cases hc : ((n_plus_one_issues cs es hs).filter
        (fun i => i.severity == "warning")).isEmpty = true
    · rw [if_pos hc]
      have hne := hiff.mp hc
      constructor
      · constructor
        · intro h01; exact absurd h01 (by decide)
        · intro hex; exact absurd hex hne
      · simp [hne]
    · rw [if_neg hc]
      have hex : ∃ f ∈ n_plus_one_issues cs es hs, f.severity = "warning" := by
        by_contra hne2
        exact hc (hiff.mpr hne2)
      constructor
      · simp [hex]
      · constructor
        · intro h10; exact absurd h10 (by decide)
        · intro hnex; exact absurd hex hnex
  · intro config l hok
    unfold config_main_exit
    rw [hok]

/-- Claim C7 counterexample: with the project root, schema and config all in
place and the config parsing fine, the config entry point still exits 1 (the
uncaught TypeError from `analyze_timeouts`), not 0 as the claim states. -/
theorem claim_C7_cex : config_main_exit exC7 = 1 := rfl

/-- Claim C7 witness: the amended exit-code contract at concrete inputs — a
controller with an N+1 pattern makes the N+1 entry point exit 1, and the
empty configuration makes the config entry point exit 0. -/
theorem claim_C7_witness :
    n_plus_one_exit [("app/controllers/posts_controller.rb",
      "@posts = Post.all\n@posts.user.name\n")] [] [] = 1 ∧
    config_main_exit [] = 0 := by
  constructor
  · exact ((claim_C7.1 _ _ _).1).mpr (by decide)
  · exact claim_C7.2.2 [] (suggest_performance_extensions "all") rfl

/-- Claim C10 (code bug evaluation): on a parsed configuration mapping whose
`production.variables` is null, the connection-settings analysis raises a
TypeError instead of emitting the unconditional pg_stat_statements
suggestion, so the run emits zero findings — contradicting the claim (and
§7's statement that analyzer evaluation never fails). -/
theorem claim_C10_eval : config_findings exC10 = Except.error "TypeError" := rfl
